import Mathlib

/-!
# Verification of the sync-core specification and category-hierarchy utility

This development formalises, over a shallow embedding:

* the CRDT sync core described by the specification (logical timestamps,
  change log, last-writer-wins merge resolver, hybrid logical clock,
  replica state machine).  The sync core's implementation is not part of
  the source tree given here (only documentation and client-side callers
  are), so those definitions are modelled from the specification text and
  are marked as such in their doc comments.
* `buildCategoryHierarchy` from
  `packages/desktop-client/src/components/util/BuildCategoryHierarchy.ts`,
  translated directly from the TypeScript source.
-/

namespace SyncCore

/-- Modelled from the spec: `LogicalTimestamp` (§3) is a triple
`(physicalMillis, counter, replicaId)`.  The spec's `u64`/`u32` fields are
modelled as `Nat` (no arithmetic overflow is exercised by the spec's
operations: they only increment and compare), and `replicaId` as a
`String` compared lexicographically. -/
structure Timestamp where
  millis : Nat
  counter : Nat
  node : String
deriving DecidableEq, Repr

/-- Modelled from the spec: the ordering on `LogicalTimestamp` (§3) —
primarily by `physicalMillis`, tie-broken by `counter`, with a final
lexicographic tie-break on `replicaId`. -/
def Timestamp.lt (a b : Timestamp) : Prop :=
  a.millis < b.millis ∨
    (a.millis = b.millis ∧
      (a.counter < b.counter ∨ (a.counter = b.counter ∧ a.node < b.node)))

instance (a b : Timestamp) : Decidable (Timestamp.lt a b) := by
  unfold Timestamp.lt
  infer_instance

theorem Timestamp.lt_irrefl (a : Timestamp) : ¬ Timestamp.lt a a := by
  unfold Timestamp.lt
  rintro (h | ⟨-, h | ⟨-, h⟩⟩) <;> exact absurd h (by simp)

theorem Timestamp.lt_trans {a b c : Timestamp}
    (hab : Timestamp.lt a b) (hbc : Timestamp.lt b c) : Timestamp.lt a c := by
  unfold Timestamp.lt at *
  rcases hab with h₁ | ⟨e₁, h₁ | ⟨f₁, g₁⟩⟩ <;>
    rcases hbc with h₂ | ⟨e₂, h₂ | ⟨f₂, g₂⟩⟩
  · exact Or.inl (Nat.lt_trans h₁ h₂)
  · exact Or.inl (e₂ ▸ h₁)
  · exact Or.inl (e₂ ▸ h₁)
  · exact Or.inl (e₁ ▸ h₂)
  · exact Or.inr ⟨e₁.trans e₂, Or.inl (Nat.lt_trans h₁ h₂)⟩
  · exact Or.inr ⟨e₁.trans e₂, Or.inl (f₂ ▸ h₁)⟩
  · exact Or.inl (e₁ ▸ h₂)
  · exact Or.inr ⟨e₁.trans e₂, Or.inl (f₁ ▸ h₂)⟩
  · exact Or.inr ⟨e₁.trans e₂, Or.inr ⟨f₁.trans f₂, g₁.trans g₂⟩⟩

theorem Timestamp.lt_asymm {a b : Timestamp}
    (h : Timestamp.lt a b) : ¬ Timestamp.lt b a := fun h' =>
  Timestamp.lt_irrefl a (Timestamp.lt_trans h h')

theorem Timestamp.lt_trichotomy (a b : Timestamp) :
    Timestamp.lt a b ∨ a = b ∨ Timestamp.lt b a := by
  obtain ⟨am, ac, an⟩ := a
  obtain ⟨bm, bc, bn⟩ := b
  unfold Timestamp.lt
  simp only
  rcases Nat.lt_trichotomy am bm with hm | hm | hm
  · exact Or.inl (Or.inl hm)
  · rcases Nat.lt_trichotomy ac bc with hc | hc | hc
    · exact Or.inl (Or.inr ⟨hm, Or.inl hc⟩)
    · rcases eq_or_ne an bn with hn | hn
      · subst hm; subst hc; subst hn; exact Or.inr (Or.inl rfl)
      · rcases hn.lt_or_lt with hn' | hn'
        · exact Or.inl (Or.inr ⟨hm, Or.inr ⟨hc, hn'⟩⟩)
        · exact Or.inr (Or.inr (Or.inr ⟨hm.symm, Or.inr ⟨hc.symm, hn'⟩⟩))
    · exact Or.inr (Or.inr (Or.inr ⟨hm.symm, Or.inl hc⟩))
  · exact Or.inr (Or.inr (Or.inl hm))

/-- Modelled from the spec: field values (§3, §9) form a closed tagged
union `Null | Bool | Number | Text`.  The spec's tombstone marker for
deletion is an ordinary value subject to the same LWW rule. -/
inductive Value where
  | null
  | bool (b : Bool)
  | num (n : Int)
  | text (s : String)
deriving DecidableEq, Repr

/-- Modelled from the spec: `ChangeEntry` (§3) — one atomic field
mutation, immutable once created. -/
structure ChangeEntry where
  timestamp : Timestamp
  datasetId : String
  recordId : String
  fieldName : String
  newValue : Value
deriving DecidableEq, Repr

/-- The `replicaId` attribute of a ChangeEntry (§3): the replica that
authored its timestamp. -/
def ChangeEntry.replicaId (e : ChangeEntry) : String := e.timestamp.node

/-- Modelled from the spec: a ChangeEntry is uniquely identified by
`(recordId, fieldName, timestamp)` (§3). -/
def ChangeEntry.key (e : ChangeEntry) : String × String × Timestamp :=
  (e.recordId, e.fieldName, e.timestamp)

/-- Whether an entry is a mutation of field `f` of record `r`. -/
def matchesField (r f : String) (e : ChangeEntry) : Bool :=
  e.recordId == r && e.fieldName == f

/-- Keep whichever of a candidate entry and a previous best has the
greater timestamp (the previous best wins only when strictly greater). -/
def pickLater (e : ChangeEntry) : Option ChangeEntry → Option ChangeEntry
  | none => some e
  | some b => if Timestamp.lt e.timestamp b.timestamp then some b else some e

/-- Modelled from the spec: the Merge Resolver's scan (§4.3) — the
ChangeEntry for `(r, f)` with the maximum LogicalTimestamp, if any. -/
def latest (r f : String) : List ChangeEntry → Option ChangeEntry
  | [] => none
  | e :: rest =>
    if matchesField r f e then pickLater e (latest r f rest)
    else latest r f rest

/-- Modelled from the spec: `resolve(recordId, fieldName)` (§4.3) returns
the `newValue` with the maximum LogicalTimestamp among the Change Log's
entries for that field. -/
def resolve (log : List ChangeEntry) (r f : String) : Option Value :=
  (latest r f log).map (fun e => e.newValue)

/-- Whether the Change Log already holds an entry with this entry's
unique identity `(recordId, fieldName, timestamp)`. -/
def seen (log : List ChangeEntry) (e : ChangeEntry) : Bool :=
  log.any (fun x => x.key == e.key)

/-- Modelled from the spec: persisting one remote entry during `ingest`
(§4.2), deduplicating by identity — an already-seen entry is a no-op. -/
def ingest1 (log : List ChangeEntry) (e : ChangeEntry) : List ChangeEntry :=
  if seen log e then log else log ++ [e]

/-- Modelled from the spec: `ingest(remoteEntries)` (§4.2) persists the
remote entries into the Change Log, deduplicating by identity. -/
def ingest (log : List ChangeEntry) (es : List ChangeEntry) : List ChangeEntry :=
  es.foldl ingest1 log

theorem seen_append (log ext : List ChangeEntry) (e : ChangeEntry) :
    seen (log ++ ext) e = (seen log e || seen ext e) := by
  simp [seen, List.any_append]

theorem seen_ingest1_self (log : List ChangeEntry) (e : ChangeEntry) :
    seen (ingest1 log e) e = true := by
  unfold ingest1
  by_cases h : seen log e
  · simp [h]
  · rw [if_neg h, seen_append]
    simp [seen]

theorem seen_ingest1_of {log : List ChangeEntry} {x : ChangeEntry}
    (e : ChangeEntry) (h : seen log x = true) : seen (ingest1 log e) x = true := by
  unfold ingest1
  by_cases hs : seen log e <;> simp [hs, seen_append, h]

theorem seen_ingest_of {log : List ChangeEntry} {x : ChangeEntry}
    (es : List ChangeEntry) (h : seen log x = true) :
    seen (ingest log es) x = true := by
  induction es generalizing log with
  | nil => exact h
  | cons e rest ih => exact ih (seen_ingest1_of e h)

theorem seen_ingest_mem {log : List ChangeEntry} {es : List ChangeEntry}
    {x : ChangeEntry} (hx : x ∈ es) : seen (ingest log es) x = true := by
  induction es generalizing log with
  | nil => cases hx
  | cons e rest ih =>
    rcases List.mem_cons.mp hx with rfl | hx'
    · exact seen_ingest_of rest (seen_ingest1_self log x)
    · exact ih hx'

theorem ingest_of_all_seen {log : List ChangeEntry} {es : List ChangeEntry}
    (h : ∀ e ∈ es, seen log e = true) : ingest log es = log := by
  induction es with
  | nil => rfl
  | cons e rest ih =>
    have h1 : ingest1 log e = log := by
      simp [ingest1, h e (List.mem_cons_self e rest)]
    show ingest (ingest1 log e) rest = log
    rw [h1]
    exact ih fun x hx => h x (List.mem_cons_of_mem e hx)

theorem matchesField_eq {r f : String} {e : ChangeEntry}
    (h : matchesField r f e = true) : e.recordId = r ∧ e.fieldName = f := by
  simpa [matchesField, Bool.and_eq_true, beq_iff_eq] using h

theorem pickLater_ne_none (e : ChangeEntry) (o : Option ChangeEntry) :
    pickLater e o ≠ none := by
  cases o with
  | none => simp [pickLater]
  | some b =>
    simp only [pickLater]
    split <;> simp

theorem latest_eq_none {r f : String} {log : List ChangeEntry} :
    latest r f log = none ↔ ∀ x ∈ log, matchesField r f x = false := by
  induction log with
  | nil => simp [latest]
  | cons a rest ih =>
    simp only [latest]
    by_cases hm : matchesField r f a = true
    · rw [if_pos hm]
      simp [pickLater_ne_none, hm]
    · rw [if_neg hm, ih]
      constructor
      · intro hr x hx
        rcases List.mem_cons.mp hx with rfl | hx'
        · cases hb : matchesField r f x
          · rfl
          · exact absurd hb hm
        · exact hr x hx'
      · exact fun hall x hx => hall x (List.mem_cons_of_mem a hx)

theorem latest_spec {r f : String} {log : List ChangeEntry} {e : ChangeEntry}
    (h : latest r f log = some e) :
    e ∈ log ∧ matchesField r f e = true ∧
      ∀ x ∈ log, matchesField r f x = true →
        ¬ Timestamp.lt e.timestamp x.timestamp := by
  induction log generalizing e with
  | nil => simp [latest] at h
  | cons a rest ih =>
    simp only [latest] at h
    by_cases hm : matchesField r f a = true
    · rw [if_pos hm] at h
      cases htl : latest r f rest with
      | none =>
        rw [htl] at h
        simp only [pickLater, Option.some.injEq] at h
        subst h
        refine ⟨List.mem_cons_self a rest, hm, ?_⟩
        intro x hx hmx
        rcases List.mem_cons.mp hx with rfl | hx'
        · exact Timestamp.lt_irrefl _
        · have := latest_eq_none.mp htl x hx'
          rw [hmx] at this
          cases this
      | some b =>
        rw [htl] at h
        obtain ⟨hbmem, hbm, hbdom⟩ := ih htl
        by_cases hlt : Timestamp.lt a.timestamp b.timestamp
        · rw [pickLater, if_pos hlt] at h
          injection h with h
          subst h
          refine ⟨List.mem_cons_of_mem a hbmem, hbm, ?_⟩
          intro x hx hmx
          rcases List.mem_cons.mp hx with rfl | hx'
          · exact Timestamp.lt_asymm hlt
          · exact hbdom x hx' hmx
        · rw [pickLater, if_neg hlt] at h
          injection h with h
          subst h
          refine ⟨List.mem_cons_self a rest, hm, ?_⟩
          intro x hx hmx
          rcases List.mem_cons.mp hx with rfl | hx'
          · exact Timestamp.lt_irrefl _
          · intro hcon
            rcases Timestamp.lt_trichotomy b.timestamp x.timestamp with h1 | h1 | h1
            · exact hbdom x hx' hmx h1
            · exact hlt (h1 ▸ hcon)
            · exact hlt (Timestamp.lt_trans hcon h1)
    · rw [if_neg hm] at h
      obtain ⟨hmem, hme, hdom⟩ := ih h
      refine ⟨List.mem_cons_of_mem a hmem, hme, ?_⟩
      intro x hx hmx
      rcases List.mem_cons.mp hx with rfl | hx'
      · exact absurd hmx hm
      · exact hdom x hx' hmx

theorem latest_complete {r f : String} {log : List ChangeEntry} {e : ChangeEntry}
    (he : e ∈ log) (hm : matchesField r f e = true)
    (hdom : ∀ x ∈ log, matchesField r f x = true → x ≠ e →
      Timestamp.lt x.timestamp e.timestamp) :
    latest r f log = some e := by
  induction log with
  | nil => cases he
  | cons a rest ih =>
    simp only [latest]
    rcases List.mem_cons.mp he with rfl | he'
    · rw [if_pos hm]
      cases htl : latest r f rest with
      | none => simp [pickLater]
      | some b =>
        obtain ⟨hbmem, hbm, _⟩ := latest_spec htl
        by_cases hbe : b = e
        · subst hbe
          rw [pickLater, if_neg (Timestamp.lt_irrefl _)]
        · have hlt := hdom b (List.mem_cons_of_mem e hbmem) hbm hbe
          rw [pickLater, if_neg (Timestamp.lt_asymm hlt)]
    · have htl : latest r f rest = some e :=
        ih he' fun x hx hmx hne => hdom x (List.mem_cons_of_mem a hx) hmx hne
      rw [htl]
      by_cases hma : matchesField r f a = true
      · rw [if_pos hma]
        by_cases hae : a = e
        · subst hae
          rw [pickLater, if_neg (Timestamp.lt_irrefl _)]
        · have hlt := hdom a (List.mem_cons_self a rest) hma hae
          rw [pickLater, if_pos hlt]
      · rw [if_neg hma]

theorem mem_ingest1_of_mem {log : List ChangeEntry} {x : ChangeEntry}
    (e : ChangeEntry) (h : x ∈ log) : x ∈ ingest1 log e := by
  unfold ingest1
  split <;> simp [h]

theorem mem_ingest_of_mem {log es : List ChangeEntry} {x : ChangeEntry}
    (h : x ∈ log) : x ∈ ingest log es := by
  induction es generalizing log with
  | nil => exact h
  | cons e rest ih => exact ih (mem_ingest1_of_mem e h)

theorem mem_of_mem_ingest {log es : List ChangeEntry} {x : ChangeEntry}
    (h : x ∈ ingest log es) : x ∈ log ∨ x ∈ es := by
  induction es generalizing log with
  | nil => exact Or.inl h
  | cons e rest ih =>
    rcases ih h with h' | h'
    · unfold ingest1 at h'
      by_cases hs : seen log e = true
      · rw [if_pos hs] at h'
        exact Or.inl h'
      · rw [if_neg hs] at h'
        rcases List.mem_append.mp h' with h'' | h''
        · exact Or.inl h''
        · exact Or.inr (List.mem_cons.mpr (Or.inl (List.mem_singleton.mp h'')))
    · exact Or.inr (List.mem_cons_of_mem e h')

theorem exists_of_seen {log : List ChangeEntry} {x : ChangeEntry}
    (h : seen log x = true) : ∃ y ∈ log, y.key = x.key := by
  simpa [seen, List.any_eq_true, beq_iff_eq] using h

theorem mem_ingest_of_keyinj {es : List ChangeEntry} {x : ChangeEntry}
    (hkey : ∀ a ∈ es, ∀ b ∈ es, a.key = b.key → a = b) (hx : x ∈ es) :
    x ∈ ingest [] es := by
  obtain ⟨y, hy, hyk⟩ := exists_of_seen (@seen_ingest_mem [] _ _ hx)
  rcases mem_of_mem_ingest hy with h | h
  · cases h
  · have hxy := hkey y h x hx hyk
    subst hxy
    exact hy

end SyncCore

/-- C3: `ingest(E)` followed by `ingest(E)` again produces no change in
the Change Log (hence no change in materialized state and no duplicate
rows), and re-ingesting any single already-seen ChangeEntry — one whose
identity `(recordId, fieldName, timestamp)` is already in the log — is a
no-op. -/
theorem ingest_idempotent (log es : List SyncCore.ChangeEntry)
    (e : SyncCore.ChangeEntry) (he : SyncCore.seen log e = true) :
    SyncCore.ingest (SyncCore.ingest log es) es = SyncCore.ingest log es ∧
      (∀ r f, SyncCore.resolve (SyncCore.ingest (SyncCore.ingest log es) es) r f =
        SyncCore.resolve (SyncCore.ingest log es) r f) ∧
      SyncCore.ingest1 log e = log := by
  have hlog : SyncCore.ingest (SyncCore.ingest log es) es = SyncCore.ingest log es :=
    SyncCore.ingest_of_all_seen fun x hx => SyncCore.seen_ingest_mem hx
  refine ⟨hlog, fun r f => by rw [hlog], ?_⟩
  simp [SyncCore.ingest1, he]

/-- Witness for C3 at a concrete log and entry batch. -/
theorem ingest_idempotent_witness :
    SyncCore.ingest
        (SyncCore.ingest [⟨⟨1, 0, "a"⟩, "d", "r", "f", SyncCore.Value.num 1⟩]
          [⟨⟨2, 0, "b"⟩, "d", "r", "f", SyncCore.Value.num 2⟩])
        [⟨⟨2, 0, "b"⟩, "d", "r", "f", SyncCore.Value.num 2⟩] =
      SyncCore.ingest [⟨⟨1, 0, "a"⟩, "d", "r", "f", SyncCore.Value.num 1⟩]
        [⟨⟨2, 0, "b"⟩, "d", "r", "f", SyncCore.Value.num 2⟩] :=
  (ingest_idempotent [⟨⟨1, 0, "a"⟩, "d", "r", "f", SyncCore.Value.num 1⟩]
    [⟨⟨2, 0, "b"⟩, "d", "r", "f", SyncCore.Value.num 2⟩]
    ⟨⟨1, 0, "a"⟩, "d", "r", "f", SyncCore.Value.num 1⟩ (by decide)).1

/-- C6: the comparison on `LogicalTimestamp` — primarily by
`physicalMillis`, tie-broken by `counter`, finally by `replicaId`
lexicographically — is a total order: for any two timestamps that differ
in at least one component, exactly one is strictly greater than the
other. -/
theorem timestamp_order_total (a b : SyncCore.Timestamp) (hne : a ≠ b) :
    (SyncCore.Timestamp.lt a b ∧ ¬ SyncCore.Timestamp.lt b a) ∨
      (SyncCore.Timestamp.lt b a ∧ ¬ SyncCore.Timestamp.lt a b) := by
  rcases SyncCore.Timestamp.lt_trichotomy a b with h | h | h
  · exact Or.inl ⟨h, SyncCore.Timestamp.lt_asymm h⟩
  · exact absurd h hne
  · exact Or.inr ⟨h, SyncCore.Timestamp.lt_asymm h⟩

/-- Witness for C6 at a concrete pair of timestamps differing only in
`replicaId`. -/
theorem timestamp_order_total_witness :
    (SyncCore.Timestamp.lt ⟨5, 2, "a"⟩ ⟨5, 2, "b"⟩ ∧
        ¬ SyncCore.Timestamp.lt ⟨5, 2, "b"⟩ ⟨5, 2, "a"⟩) ∨
      (SyncCore.Timestamp.lt ⟨5, 2, "b"⟩ ⟨5, 2, "a"⟩ ∧
        ¬ SyncCore.Timestamp.lt ⟨5, 2, "a"⟩ ⟨5, 2, "b"⟩) :=
  timestamp_order_total ⟨5, 2, "a"⟩ ⟨5, 2, "b"⟩ (by decide)

/-- C1: the Merge Resolver's `resolve` is a pure function of the Change
Log's contents (in this embedding it is a Lean function of the log, so
two calls with no intervening ingest are definitionally equal), and its
result is independent of ingestion order: two replicas that ingest the
same set `E` of ChangeEntries — here, any two permutations of a list
whose entries are distinguished by their unique identity
`(recordId, fieldName, timestamp)` — resolve every field to identical
values. -/
theorem resolve_convergence (E₁ E₂ : List SyncCore.ChangeEntry)
    (hperm : E₁.Perm E₂)
    (hkey : ∀ a ∈ E₁, ∀ b ∈ E₁,
      SyncCore.ChangeEntry.key a = SyncCore.ChangeEntry.key b → a = b)
    (r f : String) :
    SyncCore.resolve (SyncCore.ingest [] E₁) r f =
      SyncCore.resolve (SyncCore.ingest [] E₂) r f := by
  have hkey₂ : ∀ a ∈ E₂, ∀ b ∈ E₂,
      SyncCore.ChangeEntry.key a = SyncCore.ChangeEntry.key b → a = b :=
    fun a ha b hb => hkey a (hperm.symm.subset ha) b (hperm.symm.subset hb)
  have hmem₁ : ∀ x : SyncCore.ChangeEntry,
      x ∈ SyncCore.ingest [] E₁ ↔ x ∈ E₁ := fun x =>
    ⟨fun h => (SyncCore.mem_of_mem_ingest h).resolve_left (List.not_mem_nil x),
      fun h => SyncCore.mem_ingest_of_keyinj hkey h⟩
  have hmem₂ : ∀ x : SyncCore.ChangeEntry,
      x ∈ SyncCore.ingest [] E₂ ↔ x ∈ E₂ := fun x =>
    ⟨fun h => (SyncCore.mem_of_mem_ingest h).resolve_left (List.not_mem_nil x),
      fun h => SyncCore.mem_ingest_of_keyinj hkey₂ h⟩
  have hiff : ∀ x : SyncCore.ChangeEntry,
      x ∈ SyncCore.ingest [] E₁ ↔ x ∈ SyncCore.ingest [] E₂ := fun x =>
    (hmem₁ x).trans (hperm.mem_iff.trans (hmem₂ x).symm)
  unfold SyncCore.resolve
  cases hl : SyncCore.latest r f (SyncCore.ingest [] E₁) with
  | none =>
    have hnone := SyncCore.latest_eq_none.mp hl
    have h₂ : SyncCore.latest r f (SyncCore.ingest [] E₂) = none :=
      SyncCore.latest_eq_none.mpr fun x hx => hnone x ((hiff x).mpr hx)
    rw [h₂]
  | some e =>
    obtain ⟨hmem, hme, hdom⟩ := SyncCore.latest_spec hl
    have hdom' : ∀ x ∈ SyncCore.ingest [] E₁,
        SyncCore.matchesField r f x = true → x ≠ e →
        SyncCore.Timestamp.lt x.timestamp e.timestamp := by
      intro x hx hmx hne
      rcases SyncCore.Timestamp.lt_trichotomy x.timestamp e.timestamp with h1 | h1 | h1
      · exact h1
      · exfalso
        apply hne
        apply hkey x ((hmem₁ x).mp hx) e ((hmem₁ e).mp hmem)
        obtain ⟨hxr, hxf⟩ := SyncCore.matchesField_eq hmx
        obtain ⟨her, hef⟩ := SyncCore.matchesField_eq hme
        unfold SyncCore.ChangeEntry.key
        rw [hxr, hxf, her, hef, h1]
      · exact absurd h1 (hdom x hx hmx)
    have h₂ : SyncCore.latest r f (SyncCore.ingest [] E₂) = some e :=
      SyncCore.latest_complete ((hiff e).mp hmem) hme
        fun x hx hmx hne => hdom' x ((hiff x).mpr hx) hmx hne
    rw [h₂]

/-- Witness for C1: two entries for the same field ingested in the two
possible orders resolve identically. -/
theorem resolve_convergence_witness :
    SyncCore.resolve
        (SyncCore.ingest []
          [⟨⟨3, 0, "a"⟩, "d", "r", "f", SyncCore.Value.num 50⟩,
            ⟨⟨5, 0, "b"⟩, "d", "r", "f", SyncCore.Value.num 75⟩]) "r" "f" =
      SyncCore.resolve
        (SyncCore.ingest []
          [⟨⟨5, 0, "b"⟩, "d", "r", "f", SyncCore.Value.num 75⟩,
            ⟨⟨3, 0, "a"⟩, "d", "r", "f", SyncCore.Value.num 50⟩]) "r" "f" :=
  resolve_convergence
    [⟨⟨3, 0, "a"⟩, "d", "r", "f", SyncCore.Value.num 50⟩,
      ⟨⟨5, 0, "b"⟩, "d", "r", "f", SyncCore.Value.num 75⟩]
    [⟨⟨5, 0, "b"⟩, "d", "r", "f", SyncCore.Value.num 75⟩,
      ⟨⟨3, 0, "a"⟩, "d", "r", "f", SyncCore.Value.num 50⟩]
    (by decide) (by decide) "r" "f"

/-- C4: two ChangeEntries for the same `(recordId, fieldName)` whose
timestamps agree on `physicalMillis` and `counter` but differ in
`replicaId` resolve to the entry with the lexicographically greater
`replicaId`, whichever order the two entries are ingested in. -/
theorem lww_tiebreak (e₁ e₂ : SyncCore.ChangeEntry)
    (hr : e₁.recordId = e₂.recordId) (hf : e₁.fieldName = e₂.fieldName)
    (hm : e₁.timestamp.millis = e₂.timestamp.millis)
    (hc : e₁.timestamp.counter = e₂.timestamp.counter)
    (hn : e₁.timestamp.node < e₂.timestamp.node) :
    SyncCore.resolve (SyncCore.ingest [] [e₁, e₂]) e₁.recordId e₁.fieldName =
        some e₂.newValue ∧
      SyncCore.resolve (SyncCore.ingest [] [e₂, e₁]) e₁.recordId e₁.fieldName =
        some e₂.newValue := by
  have hts : SyncCore.Timestamp.lt e₁.timestamp e₂.timestamp :=
    Or.inr ⟨hm, Or.inr ⟨hc, hn⟩⟩
  have htne : e₁.timestamp ≠ e₂.timestamp := fun h =>
    SyncCore.Timestamp.lt_irrefl e₁.timestamp (h ▸ hts)
  have hkne : SyncCore.ChangeEntry.key e₁ ≠ SyncCore.ChangeEntry.key e₂ := by
    unfold SyncCore.ChangeEntry.key
    intro h
    exact htne (congrArg (fun p => p.2.2) h)
  have h12 : (SyncCore.ChangeEntry.key e₁ == SyncCore.ChangeEntry.key e₂) = false :=
    beq_eq_false_iff_ne.mpr hkne
  have h21 : (SyncCore.ChangeEntry.key e₂ == SyncCore.ChangeEntry.key e₁) = false :=
    beq_eq_false_iff_ne.mpr (Ne.symm hkne)
  have hm₁ : SyncCore.matchesField e₁.recordId e₁.fieldName e₁ = true := by
    simp [SyncCore.matchesField]
  have hm₂ : SyncCore.matchesField e₁.recordId e₁.fieldName e₂ = true := by
    simp [SyncCore.matchesField, hr, hf]
  have hnot : ¬ SyncCore.Timestamp.lt e₂.timestamp e₁.timestamp :=
    SyncCore.Timestamp.lt_asymm hts
  have hlog₁ : SyncCore.ingest [] [e₁, e₂] = [e₁, e₂] := by
    simp [SyncCore.ingest, SyncCore.ingest1, SyncCore.seen, h12]
  have hlog₂ : SyncCore.ingest [] [e₂, e₁] = [e₂, e₁] := by
    simp [SyncCore.ingest, SyncCore.ingest1, SyncCore.seen, h21]
  constructor
  · rw [hlog₁]
    simp [SyncCore.resolve, SyncCore.latest, SyncCore.pickLater, hm₁, hm₂, hts]
  · rw [hlog₂]
    simp [SyncCore.resolve, SyncCore.latest, SyncCore.pickLater, hm₁, hm₂, hnot]

/-- Witness for C4: concrete simultaneous entries from replicas "a" and
"b"; the entry from "b" wins in both ingestion orders. -/
theorem lww_tiebreak_witness :
    SyncCore.resolve
        (SyncCore.ingest []
          [⟨⟨7, 1, "a"⟩, "d", "rec", "amount", SyncCore.Value.num 50⟩,
            ⟨⟨7, 1, "b"⟩, "d", "rec", "amount", SyncCore.Value.num 75⟩]) "rec" "amount" =
        some (SyncCore.Value.num 75) ∧
      SyncCore.resolve
        (SyncCore.ingest []
          [⟨⟨7, 1, "b"⟩, "d", "rec", "amount", SyncCore.Value.num 75⟩,
            ⟨⟨7, 1, "a"⟩, "d", "rec", "amount", SyncCore.Value.num 50⟩]) "rec" "amount" =
        some (SyncCore.Value.num 75) :=
  lww_tiebreak
    ⟨⟨7, 1, "a"⟩, "d", "rec", "amount", SyncCore.Value.num 50⟩
    ⟨⟨7, 1, "b"⟩, "d", "rec", "amount", SyncCore.Value.num 75⟩
    rfl rfl rfl rfl (by rw [String.lt_iff_toList_lt]; decide)

namespace SyncCore

/-- Modelled from the spec: the Clock's persistent state (§4.1) — the
last-issued (physicalMillis, counter) pair, raised past every observed
remote high-water mark, plus this replica's id. -/
structure Clock where
  millis : Nat
  counter : Nat
  node : String
deriving DecidableEq, Repr

/-- The (physicalMillis, counter) component of the clock state. -/
def Clock.pair (c : Clock) : Nat × Nat := (c.millis, c.counter)

/-- The (physicalMillis, counter) component of a timestamp. -/
def Timestamp.pair (t : Timestamp) : Nat × Nat := (t.millis, t.counter)

/-- Strict lexicographic order on (physicalMillis, counter) pairs. -/
def pairLt (a b : Nat × Nat) : Prop := a.1 < b.1 ∨ (a.1 = b.1 ∧ a.2 < b.2)

/-- Reflexive closure of `pairLt`. -/
def pairLe (a b : Nat × Nat) : Prop := a = b ∨ pairLt a b

/-- Modelled from the spec: `Clock.next()` (§4.1) given wall-clock
reading `now`: when the wall clock is ahead it is adopted with a reset
counter; otherwise — including wall-clock regression — `physicalMillis`
is kept and the counter increments. -/
def Clock.next (c : Clock) (now : Nat) : Timestamp × Clock :=
  if c.millis < now then
    (⟨now, 0, c.node⟩, { c with millis := now, counter := 0 })
  else
    (⟨c.millis, c.counter + 1, c.node⟩, { c with counter := c.counter + 1 })

/-- Modelled from the spec: observing an incoming remote timestamp
(§4.1, §4.2 — the clock advances past remote high-water marks). -/
def Clock.recv (c : Clock) (t : Timestamp) : Clock :=
  if c.millis < t.millis then { c with millis := t.millis, counter := t.counter }
  else if c.millis = t.millis then { c with counter := max c.counter t.counter }
  else c

/-- One Clock interaction: issuing a timestamp at a given wall-clock
reading, or observing a remote timestamp. -/
inductive ClockOp where
  | tick (now : Nat)
  | recv (t : Timestamp)

/-- Run a sequence of Clock operations; returns the final clock state
and the list of issued timestamps in order. -/
def runClock (c : Clock) : List ClockOp → Clock × List Timestamp
  | [] => (c, [])
  | ClockOp.tick now :: rest =>
    ((runClock (Clock.next c now).2 rest).1,
      (Clock.next c now).1 :: (runClock (Clock.next c now).2 rest).2)
  | ClockOp.recv t :: rest => runClock (Clock.recv c t) rest

theorem pairLt_trans {a b c : Nat × Nat} (h1 : pairLt a b) (h2 : pairLt b c) :
    pairLt a c := by
  rcases h1 with h1 | ⟨e1, h1⟩ <;> rcases h2 with h2 | ⟨e2, h2⟩
  · exact Or.inl (Nat.lt_trans h1 h2)
  · exact Or.inl (e2 ▸ h1)
  · exact Or.inl (e1 ▸ h2)
  · exact Or.inr ⟨e1.trans e2, Nat.lt_trans h1 h2⟩

theorem pairLe_pairLt_trans {a b c : Nat × Nat} (h1 : pairLe a b)
    (h2 : pairLt b c) : pairLt a c := by
  rcases h1 with rfl | h1
  · exact h2
  · exact pairLt_trans h1 h2

theorem pairLt_pairLe_trans {a b c : Nat × Nat} (h1 : pairLt a b)
    (h2 : pairLe b c) : pairLt a c := by
  rcases h2 with rfl | h2
  · exact h1
  · exact pairLt_trans h1 h2

theorem pairLe_trans {a b c : Nat × Nat} (h1 : pairLe a b) (h2 : pairLe b c) :
    pairLe a c := by
  rcases h1 with rfl | h1
  · exact h2
  · exact Or.inr (pairLt_pairLe_trans h1 h2)

theorem timestamp_lt_of_pairLt {a b : Timestamp}
    (h : pairLt a.pair b.pair) : Timestamp.lt a b := by
  rcases h with h | ⟨e, h⟩
  · exact Or.inl h
  · exact Or.inr ⟨e, Or.inl h⟩

theorem next_pairLt (c : Clock) (now : Nat) :
    pairLt c.pair ((Clock.next c now).1).pair := by
  unfold Clock.next
  split
  · exact Or.inl (by assumption)
  · exact Or.inr ⟨rfl, Nat.lt_succ_self _⟩

theorem next_pair_eq (c : Clock) (now : Nat) :
    ((Clock.next c now).2).pair = ((Clock.next c now).1).pair := by
  unfold Clock.next
  split <;> rfl

theorem recv_pairLe_state (c : Clock) (t : Timestamp) :
    pairLe c.pair ((Clock.recv c t).pair) := by
  unfold Clock.recv
  split
  · exact Or.inr (Or.inl (by assumption))
  · split
    · rcases Nat.le_total c.counter t.counter with h | h
      · rcases Nat.lt_or_ge c.counter t.counter with h' | h'
        · exact Or.inr (Or.inr ⟨rfl, by simpa [Clock.pair, Nat.max_eq_right h] using h'⟩)
        · have : max c.counter t.counter = c.counter := Nat.max_eq_left h'
          simp [Clock.pair, this, pairLe]
      · have : max c.counter t.counter = c.counter := Nat.max_eq_left h
        simp [Clock.pair, this, pairLe]
    · exact Or.inl rfl

theorem recv_pairLe_remote (c : Clock) (t : Timestamp) :
    pairLe t.pair ((Clock.recv c t).pair) := by
  unfold Clock.recv
  split
  · exact Or.inl rfl
  · split
    · rename_i h1 h2
      rcases Nat.lt_or_ge t.counter (max c.counter t.counter) with h | h
      · exact Or.inr (Or.inr ⟨h2.symm, h⟩)
      · have : max c.counter t.counter = t.counter :=
          Nat.le_antisymm h (Nat.le_max_right _ _)
        simp [Timestamp.pair, Clock.pair, this, pairLe, h2]
    · rename_i h1 h2
      have : t.millis < c.millis :=
        Nat.lt_of_le_of_ne (Nat.le_of_not_lt h1) (fun h => h2 h.symm)
      exact Or.inr (Or.inl this)

theorem runClock_dominates (ops : List ClockOp) (c : Clock) :
    (∀ u ∈ (runClock c ops).2, pairLt c.pair u.pair) ∧
      pairLe c.pair ((runClock c ops).1).pair := by
  induction ops generalizing c with
  | nil => exact ⟨fun u hu => absurd hu (List.not_mem_nil u), Or.inl rfl⟩
  | cons op rest ih =>
    cases op with
    | tick now =>
      obtain ⟨ihd, ihle⟩ := ih (Clock.next c now).2
      have hstep : pairLt c.pair ((Clock.next c now).2).pair := by
        rw [next_pair_eq]
        exact next_pairLt c now
      constructor
      · intro u hu
        rcases List.mem_cons.mp hu with rfl | hu'
        · exact next_pairLt c now
        · exact pairLt_trans hstep (ihd u hu')
      · exact pairLe_trans (Or.inr hstep) ihle
    | recv t =>
      obtain ⟨ihd, ihle⟩ := ih (Clock.recv c t)
      exact ⟨fun u hu => pairLe_pairLt_trans (recv_pairLe_state c t) (ihd u hu),
        pairLe_trans (recv_pairLe_state c t) ihle⟩

theorem runClock_pairwise (c : Clock) (ops : List ClockOp) :
    ((runClock c ops).2).Pairwise Timestamp.lt := by
  induction ops generalizing c with
  | nil => exact List.Pairwise.nil
  | cons op rest ih =>
    cases op with
    | tick now =>
      refine List.Pairwise.cons ?_ (ih (Clock.next c now).2)
      intro u hu
      have h1 := (runClock_dominates rest (Clock.next c now).2).1 u hu
      rw [next_pair_eq] at h1
      exact timestamp_lt_of_pairLt h1
    | recv t => exact ih (Clock.recv c t)

end SyncCore

/-- C5: the Clock obeys the Hybrid-Logical-Clock discipline.  For every
sequence of operations: (i) the issued timestamps are strictly
increasing, so `next()` never returns a timestamp ≤ one it previously
returned; (ii) every timestamp issued after observing a remote
timestamp `t` — at any point of the history — is strictly greater than
`t`; and (iii) on wall-clock regression (`now` behind the persisted
`physicalMillis`), the counter increments while `physicalMillis` does
not decrease. -/
theorem clock_hlc_discipline (c₀ : SyncCore.Clock)
    (ops ops₁ ops₂ : List SyncCore.ClockOp) (t : SyncCore.Timestamp)
    (now : Nat) (hreg : now < c₀.millis) :
    ((SyncCore.runClock c₀ ops).2).Pairwise SyncCore.Timestamp.lt ∧
      (∀ u ∈ (SyncCore.runClock
          (SyncCore.Clock.recv (SyncCore.runClock c₀ ops₁).1 t) ops₂).2,
        SyncCore.Timestamp.lt t u) ∧
      (SyncCore.Clock.next c₀ now).1.millis = c₀.millis ∧
      (SyncCore.Clock.next c₀ now).1.counter = c₀.counter + 1 := by
  refine ⟨SyncCore.runClock_pairwise c₀ ops, ?_, ?_, ?_⟩
  · intro u hu
    have h1 := (SyncCore.runClock_dominates ops₂
      (SyncCore.Clock.recv (SyncCore.runClock c₀ ops₁).1 t)).1 u hu
    exact SyncCore.timestamp_lt_of_pairLt
      (SyncCore.pairLe_pairLt_trans
        (SyncCore.recv_pairLe_remote (SyncCore.runClock c₀ ops₁).1 t) h1)
  · unfold SyncCore.Clock.next
    rw [if_neg (Nat.not_lt.mpr (Nat.le_of_lt hreg))]
  · unfold SyncCore.Clock.next
    rw [if_neg (Nat.not_lt.mpr (Nat.le_of_lt hreg))]

/-- Witness for C5: a clock at millis 5 observing remote ⟨5,0,"b"⟩ and
then ticking with a regressed wall clock at 3 issues ⟨5,1,"a"⟩, strictly
above the remote timestamp, with the counter incremented in place of a
millis regression. -/
theorem clock_hlc_discipline_witness :
    SyncCore.Timestamp.lt ⟨5, 0, "b"⟩ ⟨5, 1, "a"⟩ ∧
      (SyncCore.Clock.next ⟨5, 0, "a"⟩ 3).1.millis = 5 ∧
      (SyncCore.Clock.next ⟨5, 0, "a"⟩ 3).1.counter = 1 :=
  have h := clock_hlc_discipline ⟨5, 0, "a"⟩ [] []
    [SyncCore.ClockOp.tick 3] ⟨5, 0, "b"⟩ 3 (by decide)
  ⟨h.2.1 ⟨5, 1, "a"⟩ (by decide), h.2.2.1, h.2.2.2⟩

namespace SyncCore

theorem pairLt_irrefl (a : Nat × Nat) : ¬ pairLt a a := by
  rintro (h | ⟨-, h⟩) <;> exact Nat.lt_irrefl _ h

theorem key_recordId {a b : ChangeEntry} (h : a.key = b.key) :
    a.recordId = b.recordId := congrArg (fun p => p.1) h

theorem key_fieldName {a b : ChangeEntry} (h : a.key = b.key) :
    a.fieldName = b.fieldName := congrArg (fun p => p.2.1) h

theorem key_timestamp {a b : ChangeEntry} (h : a.key = b.key) :
    a.timestamp = b.timestamp := congrArg (fun p => p.2.2) h

theorem seen_of_key {log : List ChangeEntry} {y e : ChangeEntry}
    (hy : y ∈ log) (hk : y.key = e.key) : seen log e = true := by
  simp only [seen, List.any_eq_true]
  exact ⟨y, hy, beq_iff_eq.mpr hk⟩

theorem latest_append_nonmatching {r f : String} {log ext : List ChangeEntry}
    (hext : ∀ x ∈ ext, matchesField r f x = false) :
    latest r f (log ++ ext) = latest r f log := by
  induction log with
  | nil =>
    simp only [List.nil_append]
    exact latest_eq_none.mpr hext
  | cons a rest ih =>
    simp only [List.cons_append, latest, List.append_eq, ih]

theorem ingest_eq_append (log es : List ChangeEntry) :
    ∃ tail, ingest log es = log ++ tail ∧
      ∀ x ∈ tail, x ∈ es ∧ seen log x = false := by
  induction es generalizing log with
  | nil => exact ⟨[], by simp [ingest], by simp⟩
  | cons e rest ih =>
    by_cases hs : seen log e = true
    · obtain ⟨tail, h1, h2⟩ := ih log
      refine ⟨tail, ?_, fun x hx =>
        ⟨List.mem_cons_of_mem e (h2 x hx).1, (h2 x hx).2⟩⟩
      show ingest (ingest1 log e) rest = log ++ tail
      rw [ingest1, if_pos hs]
      exact h1
    · obtain ⟨tail, h1, h2⟩ := ih (log ++ [e])
      refine ⟨e :: tail, ?_, ?_⟩
      · show ingest (ingest1 log e) rest = log ++ e :: tail
        rw [ingest1, if_neg hs, h1, List.append_assoc, List.singleton_append]
      · intro x hx
        rcases List.mem_cons.mp hx with rfl | hx'
        · exact ⟨List.mem_cons_self x rest, by simpa using hs⟩
        · obtain ⟨hmem, hseen⟩ := h2 x hx'
          rw [seen_append] at hseen
          exact ⟨List.mem_cons_of_mem e hmem, (Bool.or_eq_false_iff.mp hseen).1⟩

theorem keyinj_ingest {log es : List ChangeEntry}
    (h : ∀ a ∈ log, ∀ b ∈ log, a.key = b.key → a = b) :
    ∀ a ∈ ingest log es, ∀ b ∈ ingest log es, a.key = b.key → a = b := by
  induction es generalizing log with
  | nil => exact h
  | cons e rest ih =>
    show ∀ a ∈ ingest (ingest1 log e) rest, ∀ b ∈ ingest (ingest1 log e) rest,
      a.key = b.key → a = b
    apply ih
    unfold ingest1
    by_cases hs : seen log e = true
    · rw [if_pos hs]
      exact h
    · rw [if_neg hs]
      intro a ha b hb hk
      rcases List.mem_append.mp ha with ha' | ha' <;>
        rcases List.mem_append.mp hb with hb' | hb'
      · exact h a ha' b hb' hk
      · rw [List.mem_singleton.mp hb'] at hk ⊢
        exact absurd (seen_of_key ha' hk) (fun hc => hs hc)
      · rw [List.mem_singleton.mp ha'] at hk ⊢
        exact absurd (seen_of_key hb' hk.symm) (fun hc => hs hc)
      · rw [List.mem_singleton.mp ha', List.mem_singleton.mp hb']

theorem resolve_some_of_exists {log : List ChangeEntry} {r f : String}
    (hex : ∃ e ∈ log, matchesField r f e = true) :
    ∃ v, resolve log r f = some v := by
  cases hl : latest r f log with
  | none =>
    obtain ⟨e, he, hm⟩ := hex
    have := latest_eq_none.mp hl e he
    rw [hm] at this
    cases this
  | some e => exact ⟨e.newValue, by simp [resolve, hl]⟩

/-- Modelled from the spec: the Local Store Adapter's materialized state
(§4.4) as an association list from `(recordId, fieldName)` to the last
applied value (most recent write first). -/
def applyField (s : List ((String × String) × Value)) (r f : String)
    (v : Value) : List ((String × String) × Value) :=
  ((r, f), v) :: s

/-- Modelled from the spec: `currentValue(recordId, fieldName)` (§4.4);
reads the most recently applied value for the field. -/
def storeGet (s : List ((String × String) × Value)) (r f : String) :
    Option Value :=
  (s.find? (fun p => p.1 == (r, f))).map (fun p => p.2)

theorem storeGet_applyField_self (s : List ((String × String) × Value))
    (r f : String) (v : Value) : storeGet (applyField s r f v) r f = some v := by
  simp [storeGet, applyField]

theorem storeGet_applyField_ne {a b r f : String} (h : (a, b) ≠ (r, f))
    (s : List ((String × String) × Value)) (v : Value) :
    storeGet (applyField s a b v) r f = storeGet s r f := by
  have hb : (((a, b) : String × String) == (r, f)) = false :=
    beq_eq_false_iff_ne.mpr h
  simp [storeGet, applyField, List.find?_cons_of_neg, hb]

/-- Modelled from the spec: one replica's state — Clock, Change Log and
the Local Store Adapter's materialized projection (§2, §9: the explicit
`SyncEngine` context object). -/
structure Replica where
  clock : Clock
  dataset : String
  log : List ChangeEntry
  store : List ((String × String) × Value)

/-- Modelled from the spec: a fresh replica with an empty Change Log. -/
def Replica.init (n ds : String) : Replica := ⟨⟨0, 0, n⟩, ds, [], []⟩

/-- Modelled from the spec: a local mutation (§2, §4.2) — allocate a
timestamp via the Clock, append the ChangeEntry to the Change Log, and
apply the materialized effect immediately through the Local Store
Adapter. -/
def localEntry (rep : Replica) (now : Nat) (r f : String) (v : Value) :
    ChangeEntry :=
  ⟨(Clock.next rep.clock now).1, rep.dataset, r, f, v⟩

def Replica.mutate (rep : Replica) (now : Nat) (r f : String) (v : Value) :
    Replica :=
  { clock := (Clock.next rep.clock now).2,
    dataset := rep.dataset,
    log := rep.log ++ [localEntry rep now r f v],
    store := applyField rep.store r f v }

/-- Re-resolve one affected field against the (already ingested) Change
Log and apply the result through the Local Store Adapter (§4.5 Merging). -/
def mergeField (log : List ChangeEntry) (s : List ((String × String) × Value))
    (rf : String × String) : List ((String × String) × Value) :=
  match resolve log rf.1 rf.2 with
  | some v => applyField s rf.1 rf.2 v
  | none => s

/-- Modelled from the spec: the set of `(recordId, fieldName)` pairs
`ingest` reports as requiring re-merge (§4.2) — the fields of the
entries not already seen. -/
def affectedPairs (log es : List ChangeEntry) : List (String × String) :=
  (es.filter (fun e => !(seen log e))).map (fun e => (e.recordId, e.fieldName))

/-- Modelled from the spec: one Pulling+Merging cycle (§4.5) — ingest
the remote entries (deduplicating and advancing the Clock past their
timestamps), then re-resolve every affected field and apply the results. -/
def Replica.sync (rep : Replica) (es : List ChangeEntry) : Replica :=
  { clock := es.foldl (fun c e => Clock.recv c e.timestamp) rep.clock,
    dataset := rep.dataset,
    log := ingest rep.log es,
    store := (affectedPairs rep.log es).foldl
      (mergeField (ingest rep.log es)) rep.store }

/-- One replica-level operation: a local mutation or a sync cycle. -/
inductive ReplicaOp where
  | mutate (now : Nat) (r f : String) (v : Value)
  | sync (es : List ChangeEntry)

/-- Run a sequence of replica operations. -/
def Replica.run (rep : Replica) : List ReplicaOp → Replica
  | [] => rep
  | ReplicaOp.mutate now r f v :: rest => Replica.run (rep.mutate now r f v) rest
  | ReplicaOp.sync es :: rest => Replica.run (rep.sync es) rest

/-- The replica invariant: the Clock dominates every logged timestamp,
the Change Log is duplicate-free by identity, and every field with at
least one observed ChangeEntry materializes to the resolver's LWW
winner. -/
def Replica.Inv (rep : Replica) : Prop :=
  (∀ e ∈ rep.log, pairLe e.timestamp.pair rep.clock.pair) ∧
    (∀ a ∈ rep.log, ∀ b ∈ rep.log, a.key = b.key → a = b) ∧
    ∀ r f, (∃ e ∈ rep.log, matchesField r f e = true) →
      storeGet rep.store r f = resolve rep.log r f

theorem Inv_init (n ds : String) : (Replica.init n ds).Inv := by
  refine ⟨?_, ?_, ?_⟩
  · intro e he
    cases he
  · intro a ha
    cases ha
  · intro r f hex
    obtain ⟨e, he, -⟩ := hex
    cases he

end SyncCore

namespace SyncCore

theorem recvFold_le (es : List ChangeEntry) (c : Clock) :
    pairLe c.pair ((es.foldl (fun c e => Clock.recv c e.timestamp) c).pair) := by
  induction es generalizing c with
  | nil => exact Or.inl rfl
  | cons e rest ih =>
    exact pairLe_trans (recv_pairLe_state c e.timestamp)
      (ih (Clock.recv c e.timestamp))

theorem recvFold_remote {es : List ChangeEntry} {x : ChangeEntry}
    (hx : x ∈ es) (c : Clock) :
    pairLe x.timestamp.pair
      ((es.foldl (fun c e => Clock.recv c e.timestamp) c).pair) := by
  induction es generalizing c with
  | nil => cases hx
  | cons e rest ih =>
    rcases List.mem_cons.mp hx with rfl | hx'
    · exact pairLe_trans (recv_pairLe_remote c x.timestamp) (recvFold_le rest _)
    · exact ih hx' _

theorem storeGet_mergeFold_not_mem (pairs : List (String × String))
    {r f : String} (log : List ChangeEntry) :
    ∀ s, (∀ p ∈ pairs, p ≠ (r, f)) →
      storeGet (pairs.foldl (mergeField log) s) r f = storeGet s r f := by
  induction pairs with
  | nil => intro s _; rfl
  | cons p rest ih =>
    intro s h
    rw [List.foldl_cons,
      ih (mergeField log s p) (fun q hq => h q (List.mem_cons_of_mem p hq))]
    unfold mergeField
    cases hres : resolve log p.1 p.2 with
    | none => rfl
    | some v =>
      exact storeGet_applyField_ne
        (by simpa using h p (List.mem_cons_self p rest)) s v

theorem storeGet_mergeFold_mem (pairs : List (String × String))
    {r f : String} {v : Value} (log : List ChangeEntry)
    (hres : resolve log r f = some v) :
    ∀ s, (r, f) ∈ pairs →
      storeGet (pairs.foldl (mergeField log) s) r f = some v := by
  induction pairs with
  | nil => intro s h; cases h
  | cons p rest ih =>
    intro s hmem
    rw [List.foldl_cons]
    by_cases hrf : (r, f) ∈ rest
    · exact ih _ hrf
    · have hp : p = (r, f) := by
        rcases List.mem_cons.mp hmem with h' | h'
        · exact h'.symm
        · exact absurd h' hrf
      subst hp
      have hnm : ∀ q ∈ rest, q ≠ (r, f) := fun q hq hqe => hrf (hqe ▸ hq)
      rw [storeGet_mergeFold_not_mem rest log _ hnm]
      have hres' : resolve log ((r, f) : String × String).1
          ((r, f) : String × String).2 = some v := hres
      unfold mergeField
      rw [hres']
      exact storeGet_applyField_self s r f v

theorem mem_affectedPairs {log es : List ChangeEntry} {r f : String} :
    (r, f) ∈ affectedPairs log es ↔
      ∃ e ∈ es, seen log e = false ∧ e.recordId = r ∧ e.fieldName = f := by
  unfold affectedPairs
  rw [List.mem_map]
  constructor
  · rintro ⟨e, he, heq⟩
    rw [List.mem_filter] at he
    obtain ⟨h1, h2⟩ := he
    rw [Bool.not_eq_true'] at h2
    injection heq with hr hf
    exact ⟨e, h1, h2, hr, hf⟩
  · rintro ⟨e, he, hs, hr, hf⟩
    refine ⟨e, ?_, by rw [hr, hf]⟩
    rw [List.mem_filter]
    refine ⟨he, ?_⟩
    rw [hs]
    rfl

theorem Inv_mutate {rep : Replica} (h : rep.Inv) (now : Nat) (r f : String)
    (v : Value) : (rep.mutate now r f v).Inv := by
  obtain ⟨h1, h2, h3⟩ := h
  have hlt : ∀ e ∈ rep.log,
      pairLt e.timestamp.pair ((Clock.next rep.clock now).1).pair := fun e he =>
    pairLe_pairLt_trans (h1 e he) (next_pairLt rep.clock now)
  refine ⟨?_, ?_, ?_⟩
  · intro e he
    show pairLe e.timestamp.pair ((Clock.next rep.clock now).2).pair
    rw [next_pair_eq]
    rcases List.mem_append.mp he with he' | he'
    · exact Or.inr (hlt e he')
    · rw [List.mem_singleton.mp he']
      exact Or.inl rfl
  · intro a ha b hb hk
    rcases List.mem_append.mp ha with ha' | ha' <;>
      rcases List.mem_append.mp hb with hb' | hb'
    · exact h2 a ha' b hb' hk
    · exfalso
      rw [List.mem_singleton.mp hb'] at hk
      have hcon := hlt a ha'
      rw [key_timestamp hk] at hcon
      exact pairLt_irrefl _ hcon
    · exfalso
      rw [List.mem_singleton.mp ha'] at hk
      have hcon := hlt b hb'
      rw [← key_timestamp hk] at hcon
      exact pairLt_irrefl _ hcon
    · rw [List.mem_singleton.mp ha', List.mem_singleton.mp hb']
  · intro r' f' hex
    by_cases hp : ((r, f) : String × String) = (r', f')
    · injection hp with hpr hpf
      subst hpr
      subst hpf
      have hm : matchesField r f (localEntry rep now r f v) = true := by
        simp [matchesField, localEntry]
      have hcomp : latest r f (rep.log ++ [localEntry rep now r f v]) =
          some (localEntry rep now r f v) := by
        apply latest_complete
          (List.mem_append_right _ (List.mem_singleton_self _)) hm
        intro x hx hmx hne
        rcases List.mem_append.mp hx with hx' | hx'
        · exact timestamp_lt_of_pairLt (hlt x hx')
        · exact absurd (List.mem_singleton.mp hx') hne
      show storeGet (applyField rep.store r f v) r f =
        resolve (rep.log ++ [localEntry rep now r f v]) r f
      rw [storeGet_applyField_self]
      unfold resolve
      rw [hcomp]
      rfl
    · have hnm : ∀ x ∈ [localEntry rep now r f v],
          matchesField r' f' x = false := by
        intro x hx
        rw [List.mem_singleton.mp hx]
        cases hmx : matchesField r' f' (localEntry rep now r f v)
        · rfl
        · exfalso
          obtain ⟨hxr, hxf⟩ := matchesField_eq hmx
          have hr2 : r = r' := hxr
          have hf2 : f = f' := hxf
          exact hp (by rw [hr2, hf2])
      have hres : resolve (rep.log ++ [localEntry rep now r f v]) r' f' =
          resolve rep.log r' f' := by
        unfold resolve
        rw [latest_append_nonmatching hnm]
      have hex' : ∃ e ∈ rep.log, matchesField r' f' e = true := by
        obtain ⟨e, he, hm⟩ := hex
        rcases List.mem_append.mp he with he' | he'
        · exact ⟨e, he', hm⟩
        · rw [List.mem_singleton.mp he'] at hm
          rw [hnm _ (List.mem_singleton_self _)] at hm
          cases hm
      show storeGet (applyField rep.store r f v) r' f' =
        resolve (rep.log ++ [localEntry rep now r f v]) r' f'
      rw [storeGet_applyField_ne hp rep.store v, h3 r' f' hex', hres]

theorem Inv_sync {rep : Replica} (h : rep.Inv) (es : List ChangeEntry) :
    (rep.sync es).Inv := by
  obtain ⟨h1, h2, h3⟩ := h
  obtain ⟨tail, htail, htailspec⟩ := ingest_eq_append rep.log es
  refine ⟨?_, ?_, ?_⟩
  · intro e he
    show pairLe e.timestamp.pair
      ((es.foldl (fun c e => Clock.recv c e.timestamp) rep.clock).pair)
    rcases mem_of_mem_ingest he with he' | he'
    · exact pairLe_trans (h1 e he') (recvFold_le es rep.clock)
    · exact recvFold_remote he' rep.clock
  · exact keyinj_ingest h2
  · intro r' f' hex
    by_cases hmem : ((r', f') : String × String) ∈ affectedPairs rep.log es
    · obtain ⟨v, hres⟩ := resolve_some_of_exists hex
      have hres' : resolve (ingest rep.log es) r' f' = some v := hres
      show storeGet ((affectedPairs rep.log es).foldl
        (mergeField (ingest rep.log es)) rep.store) r' f' =
        resolve (ingest rep.log es) r' f'
      rw [storeGet_mergeFold_mem (affectedPairs rep.log es)
        (ingest rep.log es) hres' rep.store hmem, hres']
    · have hnm : ∀ p ∈ affectedPairs rep.log es, p ≠ (r', f') :=
        fun p hp hpe => hmem (hpe ▸ hp)
      have hextnm : ∀ x ∈ tail, matchesField r' f' x = false := by
        intro x hx
        cases hmx : matchesField r' f' x
        · rfl
        · exfalso
          obtain ⟨hxr, hxf⟩ := matchesField_eq hmx
          obtain ⟨hxes, hxseen⟩ := htailspec x hx
          exact hmem (mem_affectedPairs.mpr ⟨x, hxes, hxseen, hxr, hxf⟩)
      have hres2 : resolve (ingest rep.log es) r' f' = resolve rep.log r' f' := by
        unfold resolve
        rw [htail, latest_append_nonmatching hextnm]
      have hex' : ∃ e ∈ rep.log, matchesField r' f' e = true := by
        obtain ⟨e, he, hm⟩ := hex
        have he2 : e ∈ ingest rep.log es := he
        rw [htail] at he2
        rcases List.mem_append.mp he2 with he' | he'
        · exact ⟨e, he', hm⟩
        · rw [hextnm e he'] at hm
          cases hm
      show storeGet ((affectedPairs rep.log es).foldl
        (mergeField (ingest rep.log es)) rep.store) r' f' =
        resolve (ingest rep.log es) r' f'
      rw [storeGet_mergeFold_not_mem (affectedPairs rep.log es)
        (ingest rep.log es) rep.store hnm, h3 r' f' hex', hres2]

theorem Inv_run (rep : Replica) (h : rep.Inv) (ops : List ReplicaOp) :
    (rep.run ops).Inv := by
  induction ops generalizing rep with
  | nil => exact h
  | cons op rest ih =>
    cases op with
    | mutate now r f v => exact ih _ (Inv_mutate h now r f v)
    | sync es => exact ih _ (Inv_sync h es)

end SyncCore

/-- C2: at every reachable replica state — any sequence of local
mutations and sync (ingest, merge-and-apply) cycles starting from a
fresh replica — the materialized value of every field with at least one
observed ChangeEntry equals the `newValue` of the ChangeEntry with the
greatest LogicalTimestamp among all entries observed for that field; the
underlying invariant is established at initialization and preserved by
each operation (`SyncCore.Inv_init`, `SyncCore.Inv_mutate`,
`SyncCore.Inv_sync`). -/
theorem materialized_lww (n ds : String) (ops : List SyncCore.ReplicaOp)
    (r f : String) (e : SyncCore.ChangeEntry)
    (he : e ∈ ((SyncCore.Replica.init n ds).run ops).log)
    (hm : SyncCore.matchesField r f e = true)
    (hmax : ∀ x ∈ ((SyncCore.Replica.init n ds).run ops).log,
      SyncCore.matchesField r f x = true → x ≠ e →
        SyncCore.Timestamp.lt x.timestamp e.timestamp) :
    SyncCore.storeGet ((SyncCore.Replica.init n ds).run ops).store r f =
      some e.newValue := by
  obtain ⟨-, -, h3⟩ := SyncCore.Inv_run _ (SyncCore.Inv_init n ds) ops
  rw [h3 r f ⟨e, he, hm⟩]
  unfold SyncCore.resolve
  rw [SyncCore.latest_complete he hm hmax]
  rfl

/-- Witness for C2: a replica that mutates `T1.amount` to 50 at wall
time 100 and then syncs a remote entry setting it to 75 at timestamp 150
materializes 75, the LWW winner. -/
theorem materialized_lww_witness :
    SyncCore.storeGet
        ((SyncCore.Replica.init "a" "ds").run
          [SyncCore.ReplicaOp.mutate 100 "t1" "amount" (SyncCore.Value.num 50),
            SyncCore.ReplicaOp.sync
              [⟨⟨150, 0, "b"⟩, "ds", "t1", "amount", SyncCore.Value.num 75⟩]]).store
        "t1" "amount" =
      some (SyncCore.Value.num 75) :=
  materialized_lww "a" "ds"
    [SyncCore.ReplicaOp.mutate 100 "t1" "amount" (SyncCore.Value.num 50),
      SyncCore.ReplicaOp.sync
        [⟨⟨150, 0, "b"⟩, "ds", "t1", "amount", SyncCore.Value.num 75⟩]]
    "t1" "amount" ⟨⟨150, 0, "b"⟩, "ds", "t1", "amount", SyncCore.Value.num 75⟩
    (by decide) (by decide) (by decide)

namespace SyncCore

/-- Modelled from the spec: the fatal local failure of the error
taxonomy (§7) raised when a Change Log append fails. -/
inductive SyncError where
  | changeLogAppendFailure
deriving DecidableEq, Repr

/-- Modelled from the spec: a local mutation whose Change Log append may
fail (§4.2 failure semantics, §7): the entry must be durably appended
before any materialized effect, so on append failure the error is
returned synchronously and neither the Change Log nor the Local Store
Adapter is touched.  `appendOk` abstracts the storage outcome (disk
full / corruption versus success). -/
def Replica.tryMutate (rep : Replica) (now : Nat) (r f : String) (v : Value)
    (appendOk : Bool) : Except SyncError Replica :=
  if appendOk then Except.ok (rep.mutate now r f v)
  else Except.error SyncError.changeLogAppendFailure

/-- The caller-side contract (§7 propagation policy): on failure the
mutation is rejected and the replica keeps its previous state. -/
def Replica.afterTryMutate (rep : Replica) (now : Nat) (r f : String)
    (v : Value) (appendOk : Bool) : Replica :=
  match rep.tryMutate now r f v appendOk with
  | Except.ok rep' => rep'
  | Except.error _ => rep

end SyncCore

/-- C7: a Change Log append failure rejects the triggering mutation
atomically: `ChangeLogAppendFailure` is propagated synchronously to the
caller, and the caller-visible state keeps the Change Log, every
materialized `currentValue`, and the Clock exactly as they were; a
successful append performs the full mutation. -/
theorem append_failure_atomic (rep : SyncCore.Replica) (now : Nat)
    (r f : String) (v : SyncCore.Value) :
    rep.tryMutate now r f v false =
        Except.error SyncCore.SyncError.changeLogAppendFailure ∧
      (rep.afterTryMutate now r f v false).log = rep.log ∧
      (∀ r' f',
        SyncCore.storeGet (rep.afterTryMutate now r f v false).store r' f' =
          SyncCore.storeGet rep.store r' f') ∧
      (rep.afterTryMutate now r f v false).clock = rep.clock ∧
      rep.tryMutate now r f v true = Except.ok (rep.mutate now r f v) :=
  ⟨rfl, rfl, fun _ _ => rfl, rfl, rfl⟩

namespace Categories

/-- `CategoryEntity` from `loot-core/types/models` (the fields declared
in the interface; JS `number` is modelled as `Int`, optional fields as
`Option`, and `parent_id?: string | null` as `Option String` — the code
distinguishes absent/null/empty only through truthiness). -/
structure CategoryEntity where
  id : String
  name : String
  is_income : Option Bool := none
  group : String := ""
  goal_def : Option String := none
  sort_order : Option Int := none
  tombstone : Option Bool := none
  hidden : Option Bool := none
  parent_id : Option String := none
deriving DecidableEq, Repr

/-- First components of a list of keys, keeping only the first
occurrence of each key — the key order of a JS `Map` built by repeated
`set`. -/
def dedupFirstAux (seenIds : List String) : List String → List String
  | [] => []
  | x :: rest =>
    if x ∈ seenIds then dedupFirstAux seenIds rest
    else x :: dedupFirstAux (x :: seenIds) rest

/-- JS `Map` key order: first occurrence of each key. -/
def dedupFirst (l : List String) : List String := dedupFirstAux [] l

/-- Translated from the first pass of `buildCategoryHierarchy`: the
values of `categoryMap` in iteration order.  A JS `Map.set` on an
existing key keeps the key's original position but overwrites the value,
so the values are, per first occurrence of each id, the last input entry
with that id (each shallow-copied with a fresh `subcategories: []`,
which the pure tree model reintroduces in `buildNode`). -/
def mapValues (cats : List CategoryEntity) : List CategoryEntity :=
  (dedupFirst (cats.map (fun c => c.id))).filterMap
    (fun i => (cats.filter (fun c => c.id == i)).getLast?)

/-- The JS truthiness test `if (category.parent_id)`: the id used for
the parent lookup, unless `parent_id` is absent, null, or the empty
string. -/
def truthyParent (c : CategoryEntity) : Option String :=
  match c.parent_id with
  | none => none
  | some p => if p = "" then none else some p

/-- Whether `categoryMap.get i` finds a node. -/
def hasId (pool : List CategoryEntity) (i : String) : Bool :=
  pool.any (fun c => c.id == i)

/-- Translated from the second pass: the categories pushed (in map
iteration order) into the `subcategories` array of the node with id
`i`. -/
def childrenOf (pool : List CategoryEntity) (i : String) : List CategoryEntity :=
  pool.filter (fun c => truthyParent c == some i)

/-- Translated from the second pass: a category lands in
`rootCategories` when its `parent_id` is falsy or the parent lookup
fails. -/
def isRoot (pool : List CategoryEntity) (c : CategoryEntity) : Bool :=
  match truthyParent c with
  | none => true
  | some p => !(hasId pool p)

/-- `HierarchicalCategory`: a category together with its
`subcategories` array. -/
inductive HCat where
  | mk (cat : CategoryEntity) (subcategories : List HCat)

/-- The category stored at a node. -/
def HCat.cat : HCat → CategoryEntity
  | ⟨c, _⟩ => c

/-- The `subcategories` array of a node. -/
def HCat.subcategories : HCat → List HCat
  | ⟨_, s⟩ => s

/-- The object graph reachable from one node after the second pass:
the node's `subcategories` array holds, in map iteration order, the
children pushed into it.  The fuel argument (instantiated with the map
size, which bounds every root-reachable parent chain) only encodes
termination of the pure model; it is never exhausted on the part of the
graph reachable from `rootCategories`. -/
def buildNode (pool : List CategoryEntity) : Nat → CategoryEntity → HCat
  | 0, c => ⟨c, []⟩
  | fuel + 1, c => ⟨c, (childrenOf pool c.id).map (buildNode pool fuel)⟩

/-- `buildNode` mapped over a list of categories. -/
def buildForest (pool : List CategoryEntity) (fuel : Nat)
    (l : List CategoryEntity) : List HCat :=
  l.map (buildNode pool fuel)

/-- The sort key `(a.sort_order || 0)` of the comparator. -/
def sortKey (c : CategoryEntity) : Int := c.sort_order.getD 0

/-- Translated from `.sort((a, b) => (a.sort_order || 0) - (b.sort_order
|| 0))`: a stable ascending sort by `sort_order` (JS `Array.prototype.sort`
is stable; insertion sort is the stable sort used by the model). -/
def sortHC (l : List HCat) : List HCat :=
  l.insertionSort (fun a b => sortKey a.cat ≤ sortKey b.cat)

/-- Translated from `buildCategoryHierarchy` in
`packages/desktop-client/src/components/util/BuildCategoryHierarchy.ts`:
build the map (pass one), attach every category to its parent's node or
to `rootCategories` (pass two), then sort the root list and each root's
immediate `subcategories` array.  The `memoizeOne` wrapper only caches
the last result and does not affect the value.  The returned value is
the forest reachable from the returned `rootCategories` array. -/
def buildCategoryHierarchy (categories : List CategoryEntity) : List HCat :=
  let pool := mapValues categories
  let roots := pool.filter (isRoot pool)
  let forest := buildForest pool pool.length roots
  (sortHC forest).map (fun n => ⟨n.cat, sortHC n.subcategories⟩)

mutual

/-- All nodes of a tree (the node itself and its descendants). -/
def HCat.nodes : HCat → List HCat
  | ⟨c, subs⟩ => ⟨c, subs⟩ :: nodesF subs

/-- All nodes of a forest. -/
def nodesF : List HCat → List HCat
  | [] => []
  | h :: t => HCat.nodes h ++ nodesF t

end

mutual

/-- The categories of all nodes of a tree. -/
def HCat.flatten : HCat → List CategoryEntity
  | ⟨c, subs⟩ => c :: flattenF subs

/-- The categories of all nodes of a forest. -/
def flattenF : List HCat → List CategoryEntity
  | [] => []
  | h :: t => HCat.flatten h ++ flattenF t

end

end Categories

namespace Categories

theorem buildNode_cat (pool : List CategoryEntity) (fuel : Nat)
    (c : CategoryEntity) : (buildNode pool fuel c).cat = c := by
  cases fuel <;> rfl

theorem buildForest_cats (pool : List CategoryEntity) (fuel : Nat)
    (l : List CategoryEntity) : (buildForest pool fuel l).map HCat.cat = l := by
  unfold buildForest
  rw [List.map_map]
  have : HCat.cat ∘ buildNode pool fuel = fun c => c := by
    funext c
    exact buildNode_cat pool fuel c
  rw [this, List.map_id']

theorem buildNode_succ (pool : List CategoryEntity) (fuel : Nat)
    (c : CategoryEntity) :
    buildNode pool (fuel + 1) c =
      ⟨c, (childrenOf pool c.id).map (buildNode pool fuel)⟩ := rfl

theorem nodes_def (c : CategoryEntity) (subs : List HCat) :
    HCat.nodes ⟨c, subs⟩ = ⟨c, subs⟩ :: nodesF subs := by
  rw [HCat.nodes]

theorem nodesF_nil : nodesF [] = [] := rfl

theorem nodesF_cons (h : HCat) (t : List HCat) :
    nodesF (h :: t) = HCat.nodes h ++ nodesF t := by
  rw [nodesF]

theorem flatten_def (c : CategoryEntity) (subs : List HCat) :
    HCat.flatten ⟨c, subs⟩ = c :: flattenF subs := by
  rw [HCat.flatten]

theorem flattenF_nil : flattenF [] = [] := rfl

theorem flattenF_cons (h : HCat) (t : List HCat) :
    flattenF (h :: t) = HCat.flatten h ++ flattenF t := by
  rw [flattenF]

theorem self_mem_nodes (n : HCat) : n ∈ HCat.nodes n := by
  cases n with
  | mk c subs =>
    rw [nodes_def]
    exact List.mem_cons_self _ _

theorem nodes_subset_nodesF {n : HCat} {l : List HCat} (h : n ∈ l) :
    ∀ q ∈ HCat.nodes n, q ∈ nodesF l := by
  induction l with
  | nil => cases h
  | cons a t ih =>
    intro q hq
    rw [nodesF_cons]
    rcases List.mem_cons.mp h with rfl | h'
    · exact List.mem_append_left _ hq
    · exact List.mem_append_right _ (ih h' q hq)

theorem mem_nodesF_of_mem {n : HCat} {l : List HCat} (h : n ∈ l) :
    n ∈ nodesF l :=
  nodes_subset_nodesF h n (self_mem_nodes n)

theorem mem_nodes_of_mem_sub {n : HCat} {c : CategoryEntity}
    {subs : List HCat} (h : n ∈ nodesF subs) : n ∈ HCat.nodes ⟨c, subs⟩ := by
  rw [nodes_def]
  exact List.mem_cons_of_mem _ h

theorem mem_nodesF_map {α : Type} {n : HCat} {l : List α}
    {g : α → HCat} (h : n ∈ nodesF (l.map g)) :
    ∃ d ∈ l, n ∈ HCat.nodes (g d) := by
  induction l with
  | nil => cases h
  | cons a t ih =>
    rw [List.map_cons, nodesF_cons] at h
    rcases List.mem_append.mp h with h' | h'
    · exact ⟨a, List.mem_cons_self a t, h'⟩
    · obtain ⟨d, hd, hn⟩ := ih h'
      exact ⟨d, List.mem_cons_of_mem a hd, hn⟩

theorem mem_flattenF_map {α : Type} {x : CategoryEntity} {l : List α}
    {g : α → HCat} (h : x ∈ flattenF (l.map g)) :
    ∃ d ∈ l, x ∈ HCat.flatten (g d) := by
  induction l with
  | nil => cases h
  | cons a t ih =>
    rw [List.map_cons, flattenF_cons] at h
    rcases List.mem_append.mp h with h' | h'
    · exact ⟨a, List.mem_cons_self a t, h'⟩
    · obtain ⟨d, hd, hn⟩ := ih h'
      exact ⟨d, List.mem_cons_of_mem a hd, hn⟩

theorem count_flattenF_map (x : CategoryEntity) (l : List CategoryEntity)
    (g : CategoryEntity → HCat) :
    (flattenF (l.map g)).count x =
      (l.map (fun d => (HCat.flatten (g d)).count x)).sum := by
  induction l with
  | nil => rfl
  | cons a t ih =>
    rw [List.map_cons, flattenF_cons, List.count_append, List.map_cons,
      List.sum_cons, ih]

theorem flattenF_perm {l₁ l₂ : List HCat} (h : l₁.Perm l₂) :
    (flattenF l₁).Perm (flattenF l₂) := by
  induction h with
  | nil => exact List.Perm.refl _
  | cons a _ ih =>
    rw [flattenF_cons, flattenF_cons]
    exact ih.append_left (HCat.flatten a)
  | swap a b t =>
    rw [flattenF_cons, flattenF_cons, flattenF_cons, flattenF_cons,
      ← List.append_assoc, ← List.append_assoc]
    exact (List.perm_append_comm.append_right (flattenF t))
  | trans _ _ ih₁ ih₂ => exact ih₁.trans ih₂

theorem nodesF_perm {l₁ l₂ : List HCat} (h : l₁.Perm l₂) :
    (nodesF l₁).Perm (nodesF l₂) := by
  induction h with
  | nil => exact List.Perm.refl _
  | cons a _ ih =>
    rw [nodesF_cons, nodesF_cons]
    exact ih.append_left (HCat.nodes a)
  | swap a b t =>
    rw [nodesF_cons, nodesF_cons, nodesF_cons, nodesF_cons,
      ← List.append_assoc, ← List.append_assoc]
    exact (List.perm_append_comm.append_right (nodesF t))
  | trans _ _ ih₁ ih₂ => exact ih₁.trans ih₂

theorem flattenF_map_perm_pointwise {l : List HCat} {g : HCat → HCat}
    (h : ∀ t ∈ l, (HCat.flatten (g t)).Perm (HCat.flatten t)) :
    (flattenF (l.map g)).Perm (flattenF l) := by
  induction l with
  | nil => exact List.Perm.refl _
  | cons a t ih =>
    rw [List.map_cons, flattenF_cons, flattenF_cons]
    exact (h a (List.mem_cons_self a t)).append
      (ih fun x hx => h x (List.mem_cons_of_mem a hx))

/-- `categoryMap.get(category.parent_id)` after the truthiness test: the
parent entity, when the lookup succeeds. -/
def parentOf (pool : List CategoryEntity) (c : CategoryEntity) :
    Option CategoryEntity :=
  match truthyParent c with
  | none => none
  | some p => pool.find? (fun x => x.id == p)

/-- Iterated parent lookup: the ancestor `k` levels above a category. -/
def ancestorAt (pool : List CategoryEntity) : Nat → CategoryEntity → Option CategoryEntity
  | 0, c => some c
  | k + 1, c =>
    match parentOf pool c with
    | none => none
    | some p => ancestorAt pool k p

theorem parentOf_mem {pool : List CategoryEntity} {c p : CategoryEntity}
    (h : parentOf pool c = some p) : p ∈ pool := by
  unfold parentOf at h
  cases ht : truthyParent c with
  | none => rw [ht] at h; cases h
  | some i =>
    rw [ht] at h
    exact List.mem_of_find?_eq_some h

theorem parentOf_truthy {pool : List CategoryEntity} {c p : CategoryEntity}
    (h : parentOf pool c = some p) : truthyParent c = some p.id := by
  unfold parentOf at h
  cases ht : truthyParent c with
  | none => rw [ht] at h; cases h
  | some i =>
    rw [ht] at h
    have := List.find?_some h
    rw [beq_iff_eq] at this
    rw [this]

theorem find?_id_unique {pool : List CategoryEntity} {c : CategoryEntity}
    (hnodup : (pool.map (fun x => x.id)).Nodup) (hc : c ∈ pool) :
    pool.find? (fun x => x.id == c.id) = some c := by
  induction pool with
  | nil => cases hc
  | cons d rest ih =>
    rw [List.map_cons, List.nodup_cons] at hnodup
    obtain ⟨hd, hrest⟩ := hnodup
    rcases List.mem_cons.mp hc with rfl | hc'
    · rw [List.find?_cons_of_pos _ (by simp)]
    · have hne : (d.id == c.id) = false := by
        refine beq_eq_false_iff_ne.mpr fun hcon => hd ?_
        rw [hcon]
        exact List.mem_map.mpr ⟨c, hc', rfl⟩
      rw [List.find?_cons_of_neg _ (by simp [hne]), ih hrest hc']

theorem parent_of_child {pool : List CategoryEntity} {q c : CategoryEntity}
    (hnodup : (pool.map (fun x => x.id)).Nodup) (hq : q ∈ pool)
    (hc : c ∈ childrenOf pool q.id) : parentOf pool c = some q := by
  rw [childrenOf, List.mem_filter] at hc
  obtain ⟨-, ht⟩ := hc
  rw [beq_iff_eq] at ht
  unfold parentOf
  rw [ht]
  exact find?_id_unique hnodup hq

theorem mem_childrenOf {pool : List CategoryEntity} {c : CategoryEntity}
    {i : String} :
    c ∈ childrenOf pool i ↔ c ∈ pool ∧ truthyParent c = some i := by
  rw [childrenOf, List.mem_filter, beq_iff_eq]

theorem ancestorAt_add (pool : List CategoryEntity) (i j : Nat)
    (c : CategoryEntity) :
    ancestorAt pool (i + j) c = (ancestorAt pool i c).bind (ancestorAt pool j) := by
  induction i generalizing c with
  | zero => simp [ancestorAt]
  | succ i ih =>
    have harr : i + 1 + j = (i + j) + 1 := by omega
    rw [harr]
    show (match parentOf pool c with
      | none => none
      | some p => ancestorAt pool (i + j) p) = _
    cases hp : parentOf pool c with
    | none => simp [ancestorAt, hp]
    | some p => simp [ancestorAt, hp, ih]

theorem ancestorAt_none_mono {pool : List CategoryEntity} {c : CategoryEntity}
    {i : Nat} (h : ancestorAt pool i c = none) {j : Nat} (hij : i ≤ j) :
    ancestorAt pool j c = none := by
  obtain ⟨d, rfl⟩ := Nat.exists_eq_add_of_le hij
  rw [ancestorAt_add, h]
  rfl

theorem ancestorAt_mem {pool : List CategoryEntity} {c d : CategoryEntity}
    {k : Nat} (hc : c ∈ pool) (h : ancestorAt pool k c = some d) : d ∈ pool := by
  induction k generalizing c with
  | zero =>
    injection h with h
    rw [← h]
    exact hc
  | succ k ih =>
    show d ∈ pool
    rw [show ancestorAt pool (k + 1) c = (match parentOf pool c with
      | none => none
      | some p => ancestorAt pool k p) from rfl] at h
    cases hp : parentOf pool c with
    | none => rw [hp] at h; cases h
    | some p =>
      rw [hp] at h
      exact ih (parentOf_mem hp) h

theorem ancestorAt_one (pool : List CategoryEntity) (c : CategoryEntity) :
    ancestorAt pool 1 c = parentOf pool c := by
  show (match parentOf pool c with
    | none => none
    | some p => ancestorAt pool 0 p) = parentOf pool c
  cases hp : parentOf pool c <;> rfl

theorem ancestorAt_split {pool : List CategoryEntity} {x y : CategoryEntity}
    {i j : Nat} (h : ancestorAt pool i x = some y) (hij : i ≤ j) :
    ancestorAt pool j x = ancestorAt pool (j - i) y := by
  have h2 : i + (j - i) = j := by omega
  have h3 := ancestorAt_add pool i (j - i) x
  rw [h, h2] at h3
  exact h3

theorem ancestorAt_succ_last (pool : List CategoryEntity) (k : Nat)
    (x : CategoryEntity) :
    ancestorAt pool (k + 1) x =
      (ancestorAt pool k x).bind (parentOf pool) := by
  rw [ancestorAt_add]
  cases ancestorAt pool k x with
  | none => rfl
  | some y =>
    show ancestorAt pool 1 y = parentOf pool y
    exact ancestorAt_one pool y

theorem ancestorAt_mul_cycle {pool : List CategoryEntity} {c : CategoryEntity}
    {m : Nat} (h : ancestorAt pool m c = some c) :
    ∀ t, ancestorAt pool (t * m) c = some c := by
  intro t
  induction t with
  | zero =>
    rw [Nat.zero_mul]
    rfl
  | succ t ih =>
    have harr : (t + 1) * m = t * m + m := by ring
    rw [harr, ancestorAt_add, ih]
    exact h

theorem no_root_above_cycle {pool : List CategoryEntity} {c d : CategoryEntity}
    {m k : Nat} (hm : 0 < m) (hcyc : ancestorAt pool m c = some c)
    (hk : ancestorAt pool k c = some d) (hd : parentOf pool d = none) :
    False := by
  have h1 : ancestorAt pool (k + 1) c = none := by
    rw [ancestorAt_succ_last, hk]
    show parentOf pool d = none
    exact hd
  have h2 : ancestorAt pool ((k + 1) * m) c = some c :=
    ancestorAt_mul_cycle hcyc (k + 1)
  have h3 : k + 1 ≤ (k + 1) * m := Nat.le_mul_of_pos_right _ hm
  rw [ancestorAt_none_mono h1 h3] at h2
  cases h2

theorem chain_distinct_aux {pool : List CategoryEntity} {x d : CategoryEntity}
    {K i j : Nat} (hK : ancestorAt pool K x = some d)
    (hd : parentOf pool d = none) (hiK : i ≤ K) (hij : i < j)
    (heq : ancestorAt pool i x = ancestorAt pool j x) : False := by
  cases hy : ancestorAt pool i x with
  | none =>
    rw [ancestorAt_none_mono hy hiK] at hK
    cases hK
  | some y =>
    have hcyc : ancestorAt pool (j - i) y = some y := by
      rw [← ancestorAt_split hy (Nat.le_of_lt hij), ← heq, hy]
    have hkd : ancestorAt pool (K - i) y = some d := by
      rw [← ancestorAt_split hy hiK, hK]
    exact no_root_above_cycle (by omega) hcyc hkd hd

theorem chain_length_le {pool : List CategoryEntity} {x d : CategoryEntity}
    {K : Nat} (hx : x ∈ pool) (hK : ancestorAt pool K x = some d)
    (hd : parentOf pool d = none) : K + 1 ≤ pool.length := by
  have hnd : ((List.range (K + 1)).map (fun i => ancestorAt pool i x)).Nodup := by
    refine List.Nodup.map_on ?_ (List.nodup_range _)
    intro i hi j hj heq
    have hi' : i ≤ K := Nat.lt_succ_iff.mp (List.mem_range.mp hi)
    have hj' : j ≤ K := Nat.lt_succ_iff.mp (List.mem_range.mp hj)
    rcases Nat.lt_trichotomy i j with h | h | h
    · exact (chain_distinct_aux hK hd hi' h heq).elim
    · exact h
    · exact (chain_distinct_aux hK hd hj' h heq.symm).elim
  have hsub : ∀ o ∈ (List.range (K + 1)).map (fun i => ancestorAt pool i x),
      o ∈ pool.map some := by
    intro o ho
    rw [List.mem_map] at ho
    obtain ⟨i, hi, rfl⟩ := ho
    have hi' : i ≤ K := Nat.lt_succ_iff.mp (List.mem_range.mp hi)
    cases hoi : ancestorAt pool i x with
    | none =>
      rw [ancestorAt_none_mono hoi hi'] at hK
      cases hK
    | some y => exact List.mem_map.mpr ⟨y, ancestorAt_mem hx hoi, rfl⟩
  have hlen := List.Subperm.length_le (hnd.subperm hsub)
  simpa using hlen

theorem ancestorAt_rank {pool : List CategoryEntity} (rank : String → Nat)
    (hrank : ∀ c ∈ pool, ∀ p, parentOf pool c = some p → rank p.id < rank c.id) :
    ∀ k x c, x ∈ pool → ancestorAt pool k x = some c → 0 < k →
      rank c.id < rank x.id := by
  intro k
  induction k with
  | zero =>
    intro x c _ _ hk
    exact absurd hk (Nat.lt_irrefl 0)
  | succ k ih =>
    intro x c hx hanc _
    rw [show ancestorAt pool (k + 1) x = (match parentOf pool x with
      | none => none
      | some p => ancestorAt pool k p) from rfl] at hanc
    cases hp : parentOf pool x with
    | none => rw [hp] at hanc; cases hanc
    | some p =>
      rw [hp] at hanc
      have hpx := hrank x hx p hp
      rcases Nat.eq_zero_or_pos k with rfl | hk
      · injection hanc with hanc
        rw [← hanc]
        exact hpx
      · exact Nat.lt_trans (ih p c (parentOf_mem hp) hanc hk) hpx

theorem chain_reaches_root {pool : List CategoryEntity} (rank : String → Nat)
    (hrank : ∀ c ∈ pool, ∀ p, parentOf pool c = some p → rank p.id < rank c.id) :
    ∀ n x, x ∈ pool → rank x.id ≤ n →
      ∃ k d, ancestorAt pool k x = some d ∧ parentOf pool d = none := by
  intro n
  induction n with
  | zero =>
    intro x hx hr
    cases hp : parentOf pool x with
    | none => exact ⟨0, x, rfl, hp⟩
    | some p =>
      have := hrank x hx p hp
      omega
  | succ n ih =>
    intro x hx hr
    cases hp : parentOf pool x with
    | none => exact ⟨0, x, rfl, hp⟩
    | some p =>
      have hpr := hrank x hx p hp
      obtain ⟨k, d, hk, hd⟩ := ih p (parentOf_mem hp) (by omega)
      refine ⟨k + 1, d, ?_, hd⟩
      rw [show ancestorAt pool (k + 1) x = (match parentOf pool x with
        | none => none
        | some p => ancestorAt pool k p) from rfl, hp]
      exact hk

theorem anc_root_unique_le {pool : List CategoryEntity} {x d₁ d₂ : CategoryEntity}
    {k₁ k₂ : Nat} (h₁ : ancestorAt pool k₁ x = some d₁)
    (hd₁ : parentOf pool d₁ = none) (h₂ : ancestorAt pool k₂ x = some d₂)
    (hle : k₁ ≤ k₂) : d₁ = d₂ := by
  have hsplit := ancestorAt_split h₁ hle
  rw [h₂] at hsplit
  rcases Nat.eq_zero_or_pos (k₂ - k₁) with hz | hpos
  · rw [hz] at hsplit
    exact Option.some.inj (show some d₁ = some d₂ from hsplit.symm)
  · exfalso
    obtain ⟨m, hm⟩ := Nat.exists_eq_succ_of_ne_zero (Nat.pos_iff_ne_zero.mp hpos)
    rw [hm, show ancestorAt pool (m + 1) d₁ = (match parentOf pool d₁ with
      | none => none
      | some p => ancestorAt pool m p) from rfl, hd₁] at hsplit
    cases hsplit

theorem anc_root_unique {pool : List CategoryEntity} {x d₁ d₂ : CategoryEntity}
    {k₁ k₂ : Nat} (h₁ : ancestorAt pool k₁ x = some d₁)
    (hd₁ : parentOf pool d₁ = none) (h₂ : ancestorAt pool k₂ x = some d₂)
    (hd₂ : parentOf pool d₂ = none) : d₁ = d₂ := by
  rcases Nat.le_total k₁ k₂ with h | h
  · exact anc_root_unique_le h₁ hd₁ h₂ h
  · exact (anc_root_unique_le h₂ hd₂ h₁ h).symm

theorem anc_child_unique {pool : List CategoryEntity} (rank : String → Nat)
    (hrank : ∀ c ∈ pool, ∀ p, parentOf pool c = some p → rank p.id < rank c.id)
    {x q d₁ d₂ : CategoryEntity} {k₁ k₂ : Nat} (hx : x ∈ pool)
    (hp₁ : parentOf pool d₁ = some q) (hp₂ : parentOf pool d₂ = some q)
    (h₁ : ancestorAt pool k₁ x = some d₁) (h₂ : ancestorAt pool k₂ x = some d₂) :
    d₁ = d₂ := by
  have key : ∀ (e₁ e₂ : CategoryEntity) (j₁ j₂ : Nat), j₁ ≤ j₂ →
      parentOf pool e₁ = some q → parentOf pool e₂ = some q →
      ancestorAt pool j₁ x = some e₁ → ancestorAt pool j₂ x = some e₂ →
      e₁ = e₂ := by
    intro e₁ e₂ j₁ j₂ hle hq₁ hq₂ ha₁ ha₂
    have hsplit := ancestorAt_split ha₁ hle
    rw [ha₂] at hsplit
    rcases Nat.eq_zero_or_pos (j₂ - j₁) with hz | hpos
    · rw [hz] at hsplit
      exact Option.some.inj (show some e₁ = some e₂ from hsplit.symm)
    · exfalso
      obtain ⟨m, hm⟩ := Nat.exists_eq_succ_of_ne_zero (Nat.pos_iff_ne_zero.mp hpos)
      rw [hm, show ancestorAt pool (m + 1) e₁ = (match parentOf pool e₁ with
        | none => none
        | some p => ancestorAt pool m p) from rfl, hq₁] at hsplit
      have hqmem : q ∈ pool := parentOf_mem hq₁
      rcases Nat.eq_zero_or_pos m with rfl | hmpos
      · have h : q = e₂ := Option.some.inj (show some q = some e₂ from hsplit.symm)
        rw [← h] at hq₂
        exact Nat.lt_irrefl _ (hrank q hqmem q hq₂)
      · have hrk₂ := ancestorAt_rank rank hrank m q e₂ hqmem hsplit.symm hmpos
        have := hrank e₂ (ancestorAt_mem hqmem hsplit.symm) q hq₂
        omega
  rcases Nat.le_total k₁ k₂ with h | h
  · exact key d₁ d₂ k₁ k₂ h hp₁ hp₂ h₁ h₂
  · exact (key d₂ d₁ k₂ k₁ h hp₂ hp₁ h₂ h₁).symm

/-- `d` is an ancestor of `x` (itself included) within `fuel` levels. -/
def SomeAnc (pool : List CategoryEntity) (fuel : Nat) (x d : CategoryEntity) : Prop :=
  ∃ k, k ≤ fuel ∧ ancestorAt pool k x = some d

instance (pool : List CategoryEntity) (fuel : Nat) (x d : CategoryEntity) :
    Decidable (SomeAnc pool fuel x d) :=
  decidable_of_iff
    ((List.range (fuel + 1)).any (fun k => ancestorAt pool k x == some d) = true)
    (by
      rw [List.any_eq_true]
      constructor
      · rintro ⟨k, hk, h⟩
        exact ⟨k, Nat.lt_succ_iff.mp (List.mem_range.mp hk), beq_iff_eq.mp h⟩
      · rintro ⟨k, hk, h⟩
        exact ⟨k, List.mem_range.mpr (Nat.lt_succ_iff.mpr hk), beq_iff_eq.mpr h⟩)

theorem sum_indicator_unique {α : Type} (l : List α) (P : α → Prop)
    [DecidablePred P] (hnd : l.Nodup)
    (huniq : ∀ a ∈ l, ∀ b ∈ l, P a → P b → a = b) :
    (l.map (fun a => if P a then 1 else 0)).sum =
      if ∃ a ∈ l, P a then 1 else 0 := by
  induction l with
  | nil => simp
  | cons a t ih =>
    rw [List.map_cons, List.sum_cons]
    rw [List.nodup_cons] at hnd
    by_cases hPa : P a
    · rw [if_pos hPa, if_pos ⟨a, List.mem_cons_self a t, hPa⟩]
      have ht0 : (t.map fun b => if P b then 1 else 0).sum = 0 := by
        apply List.sum_eq_zero
        intro n hn
        rw [List.mem_map] at hn
        obtain ⟨b, hb, rfl⟩ := hn
        have hnb : ¬ P b := fun hPb =>
          hnd.1 (huniq b (List.mem_cons_of_mem a hb) a
            (List.mem_cons_self a t) hPb hPa ▸ hb)
        rw [if_neg hnb]
      rw [ht0]
    · rw [if_neg hPa, Nat.zero_add,
        ih hnd.2 (fun x hx y hy => huniq x (List.mem_cons_of_mem a hx) y
          (List.mem_cons_of_mem a hy))]
      have hiff : (∃ b ∈ t, P b) ↔ (∃ b ∈ a :: t, P b) := by
        constructor
        · rintro ⟨b, hb, h⟩
          exact ⟨b, List.mem_cons_of_mem a hb, h⟩
        · rintro ⟨b, hb, h⟩
          rcases List.mem_cons.mp hb with rfl | hb'
          · exact absurd h hPa
          · exact ⟨b, hb', h⟩
      rw [if_congr hiff rfl rfl]

theorem parentOf_none_iff_isRoot (pool : List CategoryEntity)
    (c : CategoryEntity) : parentOf pool c = none ↔ isRoot pool c = true := by
  unfold parentOf isRoot
  cases truthyParent c with
  | none => simp
  | some p =>
    simp only [List.find?_eq_none, hasId, Bool.not_eq_true']
    rw [List.any_eq_false]

theorem pool_nodup {pool : List CategoryEntity}
    (hnodup : (pool.map (fun x => x.id)).Nodup) : pool.Nodup :=
  hnodup.of_map

theorem children_sub_pool (pool : List CategoryEntity) (i : String) :
    ∀ c ∈ childrenOf pool i, c ∈ pool := fun c hc =>
  (mem_childrenOf.mp hc).1

theorem count_buildNode {pool : List CategoryEntity} (rank : String → Nat)
    (hnodup : (pool.map (fun x => x.id)).Nodup)
    (hrank : ∀ c ∈ pool, ∀ p, parentOf pool c = some p → rank p.id < rank c.id) :
    ∀ fuel c x, c ∈ pool → x ∈ pool →
      (HCat.flatten (buildNode pool fuel c)).count x =
        if SomeAnc pool fuel x c then 1 else 0 := by
  intro fuel
  induction fuel with
  | zero =>
    intro c x hc hx
    rw [show buildNode pool 0 c = ⟨c, []⟩ from rfl, flatten_def, flattenF_nil]
    by_cases hxc : x = c
    · subst hxc
      rw [if_pos ⟨0, Nat.le_refl 0, rfl⟩]
      simp
    · have hno : ¬ SomeAnc pool 0 x c := by
        rintro ⟨k, hk, hanc⟩
        have hk0 : k = 0 := Nat.le_zero.mp hk
        subst hk0
        exact hxc (Option.some.inj hanc)
      rw [if_neg hno]
      simp [List.count_cons, hxc]
  | succ fuel ih =>
    intro c x hc hx
    rw [buildNode_succ, flatten_def, List.count_cons, count_flattenF_map]
    have hchild_sub := children_sub_pool pool c.id
    have hcongr : ((childrenOf pool c.id).map
        (fun d => (HCat.flatten (buildNode pool fuel d)).count x)) =
        ((childrenOf pool c.id).map
          (fun d => if SomeAnc pool fuel x d then 1 else 0)) := by
      apply List.map_congr_left
      intro d hd
      exact ih d x (hchild_sub d hd) hx
    rw [hcongr]
    have hnd : (childrenOf pool c.id).Nodup := (pool_nodup hnodup).filter _
    have huniq : ∀ a ∈ childrenOf pool c.id, ∀ b ∈ childrenOf pool c.id,
        SomeAnc pool fuel x a → SomeAnc pool fuel x b → a = b := by
      rintro a ha b hb ⟨k₁, -, h₁⟩ ⟨k₂, -, h₂⟩
      exact anc_child_unique rank hrank hx (parent_of_child hnodup hc ha)
        (parent_of_child hnodup hc hb) h₁ h₂
    rw [sum_indicator_unique _ _ hnd huniq]
    by_cases hxc : x = c
    · subst hxc
      have hnochild : ¬ ∃ d ∈ childrenOf pool x.id, SomeAnc pool fuel x d := by
        rintro ⟨d, hd, k, hk, hanc⟩
        have hcyc : ancestorAt pool (k + 1) x = some x := by
          rw [ancestorAt_succ_last, hanc]
          show parentOf pool d = some x
          exact parent_of_child hnodup hc hd
        exact Nat.lt_irrefl _
          (ancestorAt_rank rank hrank (k + 1) x x hx hcyc (Nat.succ_pos k))
      rw [if_neg hnochild, if_pos (beq_self_eq_true x),
        if_pos (show SomeAnc pool (fuel + 1) x x from ⟨0, Nat.zero_le _, rfl⟩)]
    · have hiff : (∃ d ∈ childrenOf pool c.id, SomeAnc pool fuel x d) ↔
          SomeAnc pool (fuel + 1) x c := by
        constructor
        · rintro ⟨d, hd, k, hk, hanc⟩
          refine ⟨k + 1, Nat.succ_le_succ hk, ?_⟩
          rw [ancestorAt_succ_last, hanc]
          show parentOf pool d = some c
          exact parent_of_child hnodup hc hd
        · rintro ⟨k, hk, hanc⟩
          cases k with
          | zero => exact absurd (Option.some.inj hanc) hxc
          | succ k' =>
            rw [ancestorAt_succ_last] at hanc
            cases hy : ancestorAt pool k' x with
            | none => rw [hy] at hanc; cases hanc
            | some y =>
              rw [hy] at hanc
              have hpy : parentOf pool y = some c := hanc
              refine ⟨y, ?_, k', Nat.succ_le_succ_iff.mp hk, hy⟩
              exact mem_childrenOf.mpr ⟨ancestorAt_mem hx hy, parentOf_truthy hpy⟩
      have hne : (c == x) = false := beq_eq_false_iff_ne.mpr fun h => hxc h.symm
      rw [if_congr hiff rfl rfl, hne]
      simp

theorem flatten_buildNode_subset {pool : List CategoryEntity} :
    ∀ fuel c, c ∈ pool → ∀ y ∈ HCat.flatten (buildNode pool fuel c), y ∈ pool := by
  intro fuel
  induction fuel with
  | zero =>
    intro c hc y hy
    rw [show buildNode pool 0 c = ⟨c, []⟩ from rfl, flatten_def, flattenF_nil] at hy
    rw [List.mem_singleton.mp hy]
    exact hc
  | succ fuel ih =>
    intro c hc y hy
    rw [buildNode_succ, flatten_def] at hy
    rcases List.mem_cons.mp hy with rfl | hy'
    · exact hc
    · obtain ⟨d, hd, hyd⟩ := mem_flattenF_map hy'
      exact ih d (children_sub_pool pool c.id d hd) y hyd

theorem count_forest_roots {pool : List CategoryEntity} (rank : String → Nat)
    (hnodup : (pool.map (fun x => x.id)).Nodup)
    (hrank : ∀ c ∈ pool, ∀ p, parentOf pool c = some p → rank p.id < rank c.id) :
    ∀ x ∈ pool,
      (flattenF (buildForest pool pool.length
        (pool.filter (isRoot pool)))).count x = 1 := by
  intro x hx
  rw [buildForest, count_flattenF_map]
  have hsub : ∀ d ∈ pool.filter (isRoot pool), d ∈ pool := fun d hd =>
    (List.mem_filter.mp hd).1
  have hcongr : ((pool.filter (isRoot pool)).map
      (fun d => (HCat.flatten (buildNode pool pool.length d)).count x)) =
      ((pool.filter (isRoot pool)).map
        (fun d => if SomeAnc pool pool.length x d then 1 else 0)) := by
    apply List.map_congr_left
    intro d hd
    exact count_buildNode rank hnodup hrank pool.length d x (hsub d hd) hx
  rw [hcongr]
  have hnd : (pool.filter (isRoot pool)).Nodup := (pool_nodup hnodup).filter _
  have huniq : ∀ a ∈ pool.filter (isRoot pool), ∀ b ∈ pool.filter (isRoot pool),
      SomeAnc pool pool.length x a → SomeAnc pool pool.length x b → a = b := by
    rintro a ha b hb ⟨k₁, -, h₁⟩ ⟨k₂, -, h₂⟩
    exact anc_root_unique h₁
      ((parentOf_none_iff_isRoot pool a).mpr (List.mem_filter.mp ha).2) h₂
      ((parentOf_none_iff_isRoot pool b).mpr (List.mem_filter.mp hb).2)
  rw [sum_indicator_unique _ _ hnd huniq]
  obtain ⟨k, d, hk, hd⟩ := chain_reaches_root rank hrank (rank x.id) x hx (Nat.le_refl _)
  have hbound : k + 1 ≤ pool.length := chain_length_le hx hk hd
  refine if_pos ⟨d, ?_, k, by omega, hk⟩
  exact List.mem_filter.mpr ⟨ancestorAt_mem hx hk,
    (parentOf_none_iff_isRoot pool d).mp hd⟩

theorem forest_flatten_perm {pool : List CategoryEntity} (rank : String → Nat)
    (hnodup : (pool.map (fun x => x.id)).Nodup)
    (hrank : ∀ c ∈ pool, ∀ p, parentOf pool c = some p → rank p.id < rank c.id) :
    (flattenF (buildForest pool pool.length
      (pool.filter (isRoot pool)))).Perm pool := by
  rw [List.perm_iff_count]
  intro a
  by_cases ha : a ∈ pool
  · rw [count_forest_roots rank hnodup hrank a ha]
    exact (List.count_eq_one_of_mem (pool_nodup hnodup) ha).symm
  · rw [List.count_eq_zero.mpr ha, List.count_eq_zero.mpr ?_]
    intro hcon
    rw [buildForest] at hcon
    obtain ⟨d, hd, had⟩ := mem_flattenF_map hcon
    exact ha (flatten_buildNode_subset pool.length d
      ((List.mem_filter.mp hd).1) a had)

theorem mem_dedupFirstAux {x : String} :
    ∀ (seenIds l : List String),
      x ∈ dedupFirstAux seenIds l ↔ x ∈ l ∧ x ∉ seenIds := by
  intro seenIds l
  induction l generalizing seenIds with
  | nil => simp [dedupFirstAux]
  | cons a t ih =>
    simp only [dedupFirstAux]
    by_cases ha : a ∈ seenIds
    · rw [if_pos ha, ih]
      constructor
      · rintro ⟨hx, hs⟩
        exact ⟨List.mem_cons_of_mem a hx, hs⟩
      · rintro ⟨hx, hs⟩
        rcases List.mem_cons.mp hx with rfl | hx'
        · exact absurd ha hs
        · exact ⟨hx', hs⟩
    · rw [if_neg ha]
      constructor
      · intro hmem
        rcases List.mem_cons.mp hmem with rfl | h'
        · exact ⟨List.mem_cons_self x t, ha⟩
        · rw [ih] at h'
          obtain ⟨h1, h2⟩ := h'
          exact ⟨List.mem_cons_of_mem a h1,
            fun hc => h2 (List.mem_cons_of_mem a hc)⟩
      · rintro ⟨hx, hs⟩
        rcases List.mem_cons.mp hx with rfl | hx'
        · exact List.mem_cons_self x _
        · by_cases hxa : x = a
          · subst hxa
            exact List.mem_cons_self x _
          · refine List.mem_cons_of_mem a ?_
            rw [ih]
            exact ⟨hx', fun hc => (List.mem_cons.mp hc).elim hxa hs⟩

theorem dedupFirstAux_nodup : ∀ (seenIds l : List String),
    (dedupFirstAux seenIds l).Nodup := by
  intro seenIds l
  induction l generalizing seenIds with
  | nil => exact List.nodup_nil
  | cons a t ih =>
    simp only [dedupFirstAux]
    by_cases ha : a ∈ seenIds
    · rw [if_pos ha]
      exact ih seenIds
    · rw [if_neg ha]
      refine List.nodup_cons.mpr ⟨?_, ih _⟩
      rw [mem_dedupFirstAux]
      rintro ⟨-, hns⟩
      exact hns (List.mem_cons_self a seenIds)

theorem dedupFirstAux_eq_self : ∀ (l seenIds : List String), l.Nodup →
    (∀ x ∈ l, x ∉ seenIds) → dedupFirstAux seenIds l = l := by
  intro l
  induction l with
  | nil => intro seenIds _ _; rfl
  | cons a t ih =>
    intro seenIds hnd hdisj
    simp only [dedupFirstAux]
    rw [if_neg (hdisj a (List.mem_cons_self a t))]
    congr 1
    refine ih _ (List.nodup_cons.mp hnd).2 ?_
    intro x hx hc
    rcases List.mem_cons.mp hc with rfl | hc'
    · exact (List.nodup_cons.mp hnd).1 hx
    · exact hdisj x (List.mem_cons_of_mem a hx) hc'

theorem dedupFirst_sub {l : List String} {x : String}
    (h : x ∈ dedupFirst l) : x ∈ l :=
  ((mem_dedupFirstAux [] l).mp h).1

theorem filter_id_singleton {cats : List CategoryEntity} {c : CategoryEntity}
    (hnodup : (cats.map (fun x => x.id)).Nodup) (hc : c ∈ cats) :
    cats.filter (fun x => x.id == c.id) = [c] := by
  induction cats with
  | nil => cases hc
  | cons d rest ih =>
    rw [List.map_cons, List.nodup_cons] at hnodup
    obtain ⟨hd, hrest⟩ := hnodup
    rcases List.mem_cons.mp hc with rfl | hc'
    · rw [List.filter_cons_of_pos (by simp)]
      have hnil : rest.filter (fun x => x.id == c.id) = [] := by
        rw [List.filter_eq_nil_iff]
        intro x hx
        simp only [beq_iff_eq]
        intro hcon
        exact hd (hcon ▸ List.mem_map.mpr ⟨x, hx, rfl⟩)
      rw [hnil]
    · have hne : (d.id == c.id) = false := by
        refine beq_eq_false_iff_ne.mpr fun hcon => hd ?_
        rw [hcon]
        exact List.mem_map.mpr ⟨c, hc', rfl⟩
      rw [List.filter_cons_of_neg (by simp [hne]), ih hrest hc']

theorem filterMap_id_of_some {α : Type} {l : List α} {f : α → Option α}
    (h : ∀ a ∈ l, f a = some a) : l.filterMap f = l := by
  induction l with
  | nil => rfl
  | cons a t ih =>
    rw [List.filterMap_cons, h a (List.mem_cons_self a t),
      ih fun b hb => h b (List.mem_cons_of_mem a hb)]

theorem mapValues_self {cats : List CategoryEntity}
    (hnodup : (cats.map (fun x => x.id)).Nodup) : mapValues cats = cats := by
  unfold mapValues dedupFirst
  rw [dedupFirstAux_eq_self _ _ hnodup (by simp), List.filterMap_map]
  apply filterMap_id_of_some
  intro a ha
  show (cats.filter (fun c => c.id == a.id)).getLast? = some a
  rw [filter_id_singleton hnodup ha]
  rfl

theorem filterMap_lastWith_ids (cats : List CategoryEntity) :
    ∀ ids : List String, (∀ i ∈ ids, ∃ c ∈ cats, c.id = i) →
      ((ids.filterMap
        (fun i => (cats.filter (fun c => c.id == i)).getLast?)).map
          (fun c => c.id)) = ids := by
  intro ids
  induction ids with
  | nil => intro _; rfl
  | cons i t ih =>
    intro h
    obtain ⟨c, hc, hcid⟩ := h i (List.mem_cons_self i t)
    have hmemf : c ∈ cats.filter (fun x => x.id == i) :=
      List.mem_filter.mpr ⟨hc, by simp [hcid]⟩
    cases hg : (cats.filter (fun x => x.id == i)).getLast? with
    | none =>
      rw [List.getLast?_eq_none_iff] at hg
      rw [hg] at hmemf
      cases hmemf
    | some cl =>
      have hclmem : cl ∈ cats.filter (fun x => x.id == i) :=
        List.mem_of_mem_getLast? hg
      have hclid : cl.id = i := by
        have := (List.mem_filter.mp hclmem).2
        rwa [beq_iff_eq] at this
      rw [List.filterMap_cons, hg]
      show (cl :: t.filterMap _).map (fun c => c.id) = i :: t
      rw [List.map_cons, hclid,
        ih fun j hj => h j (List.mem_cons_of_mem i hj)]

theorem mapValues_ids (cats : List CategoryEntity) :
    (mapValues cats).map (fun c => c.id) =
      dedupFirst (cats.map (fun c => c.id)) := by
  unfold mapValues
  apply filterMap_lastWith_ids
  intro i hi
  have hmem := dedupFirst_sub hi
  rw [List.mem_map] at hmem
  obtain ⟨c, hc, hcid⟩ := hmem
  exact ⟨c, hc, hcid⟩

theorem mapValues_ids_nodup (cats : List CategoryEntity) :
    ((mapValues cats).map (fun c => c.id)).Nodup := by
  rw [mapValues_ids]
  exact dedupFirstAux_nodup [] _

theorem nodes_buildNode_form {pool : List CategoryEntity}
    (hnodup : (pool.map (fun x => x.id)).Nodup) :
    ∀ fuel c, c ∈ pool → ∀ n ∈ HCat.nodes (buildNode pool fuel c),
      ∃ x k, x ∈ pool ∧ k ≤ fuel ∧ ancestorAt pool k x = some c ∧
        n = buildNode pool (fuel - k) x := by
  intro fuel
  induction fuel with
  | zero =>
    intro c hc n hn
    rw [show buildNode pool 0 c = ⟨c, []⟩ from rfl, nodes_def, nodesF_nil] at hn
    rw [List.mem_singleton.mp hn]
    exact ⟨c, 0, hc, Nat.le_refl 0, rfl, rfl⟩
  | succ fuel ih =>
    intro c hc n hn
    rw [buildNode_succ, nodes_def] at hn
    rcases List.mem_cons.mp hn with rfl | hn'
    · exact ⟨c, 0, hc, Nat.zero_le _, rfl, rfl⟩
    · obtain ⟨d, hd, hnd⟩ := mem_nodesF_map hn'
      obtain ⟨x, k, hx, hk, hanc, hform⟩ :=
        ih d (children_sub_pool pool c.id d hd) n hnd
      refine ⟨x, k + 1, hx, Nat.succ_le_succ hk, ?_, ?_⟩
      · rw [ancestorAt_succ_last, hanc]
        show parentOf pool d = some c
        exact parent_of_child hnodup hc hd
      · rw [Nat.succ_sub_succ]
        exact hform

theorem forest_subcats {pool : List CategoryEntity}
    (hnodup : (pool.map (fun x => x.id)).Nodup) :
    ∀ n ∈ nodesF (buildForest pool pool.length (pool.filter (isRoot pool))),
      n.subcategories.map HCat.cat = childrenOf pool n.cat.id := by
  intro n hn
  rw [buildForest] at hn
  obtain ⟨d, hd, hnd⟩ := mem_nodesF_map hn
  have hdmem : d ∈ pool := (List.mem_filter.mp hd).1
  obtain ⟨x, k, hx, hk, hanc, hform⟩ :=
    nodes_buildNode_form hnodup pool.length d hdmem n hnd
  have hdroot : parentOf pool d = none :=
    (parentOf_none_iff_isRoot pool d).mpr (List.mem_filter.mp hd).2
  have hbound : k + 1 ≤ pool.length := chain_length_le hx hanc hdroot
  obtain ⟨m, hm⟩ : ∃ m, pool.length - k = m + 1 := ⟨pool.length - k - 1, by omega⟩
  rw [hform, hm, buildNode_succ]
  show ((childrenOf pool x.id).map (buildNode pool m)).map HCat.cat =
    childrenOf pool x.id
  rw [List.map_map]
  have hcomp : HCat.cat ∘ buildNode pool m = fun c => c :=
    funext (buildNode_cat pool m)
  rw [hcomp, List.map_id']

mutual

theorem flatten_eq_nodes_map : ∀ n : HCat,
    HCat.flatten n = (HCat.nodes n).map HCat.cat
  | ⟨c, subs⟩ => by
    rw [flatten_def, nodes_def, List.map_cons, flattenF_eq_nodesF_map subs]
    rfl

theorem flattenF_eq_nodesF_map : ∀ l : List HCat,
    flattenF l = (nodesF l).map HCat.cat
  | [] => rfl
  | h :: t => by
    rw [flattenF_cons, nodesF_cons, List.map_append, flatten_eq_nodes_map h,
      flattenF_eq_nodesF_map t]

end

theorem sortHC_perm (l : List HCat) : (sortHC l).Perm l :=
  List.perm_insertionSort _ l

theorem sortHC_sorted (l : List HCat) :
    List.Sorted (fun a b => sortKey a.cat ≤ sortKey b.cat) (sortHC l) := by
  haveI ht : IsTotal HCat (fun a b => sortKey a.cat ≤ sortKey b.cat) :=
    ⟨fun a b => Int.le_total _ _⟩
  haveI htr : IsTrans HCat (fun a b => sortKey a.cat ≤ sortKey b.cat) :=
    ⟨fun a b c h₁ h₂ => le_trans h₁ h₂⟩
  exact List.sorted_insertionSort _ l

theorem buildCategoryHierarchy_eq (cats : List CategoryEntity) :
    buildCategoryHierarchy cats =
      (sortHC (buildForest (mapValues cats) (mapValues cats).length
        ((mapValues cats).filter (isRoot (mapValues cats))))).map
          (fun t => ⟨t.cat, sortHC t.subcategories⟩) := rfl

theorem out_nodes_transfer (cats : List CategoryEntity) :
    ∀ n ∈ nodesF (buildCategoryHierarchy cats),
      ∃ m ∈ nodesF (buildForest (mapValues cats) (mapValues cats).length
        ((mapValues cats).filter (isRoot (mapValues cats)))),
        n.cat = m.cat ∧
          (n.subcategories.map HCat.cat).Perm (m.subcategories.map HCat.cat) := by
  intro n hn
  rw [buildCategoryHierarchy_eq] at hn
  obtain ⟨t, ht, hnt⟩ := mem_nodesF_map hn
  have htf : t ∈ buildForest (mapValues cats) (mapValues cats).length
      ((mapValues cats).filter (isRoot (mapValues cats))) :=
    (sortHC_perm _).subset ht
  have hnt2 : n ∈ HCat.nodes ⟨t.cat, sortHC t.subcategories⟩ := hnt
  rw [nodes_def] at hnt2
  rcases List.mem_cons.mp hnt2 with rfl | hnt'
  · refine ⟨t, mem_nodesF_of_mem htf, rfl, ?_⟩
    show ((sortHC t.subcategories).map HCat.cat).Perm
      (t.subcategories.map HCat.cat)
    exact (sortHC_perm _).map _
  · have hsub : n ∈ nodesF t.subcategories :=
      (nodesF_perm (sortHC_perm _)).subset hnt'
    refine ⟨n, ?_, rfl, List.Perm.refl _⟩
    have hmem : n ∈ HCat.nodes t := by
      cases t with
      | mk tc tsubs => exact mem_nodes_of_mem_sub hsub
    exact nodes_subset_nodesF htf n hmem

theorem output_flatten_perm_forest (cats : List CategoryEntity) :
    (flattenF (buildCategoryHierarchy cats)).Perm
      (flattenF (buildForest (mapValues cats) (mapValues cats).length
        ((mapValues cats).filter (isRoot (mapValues cats))))) := by
  rw [buildCategoryHierarchy_eq]
  refine (flattenF_map_perm_pointwise ?_).trans (flattenF_perm (sortHC_perm _))
  intro t _
  cases t with
  | mk tc tsubs =>
    show (HCat.flatten ⟨tc, sortHC tsubs⟩).Perm (HCat.flatten ⟨tc, tsubs⟩)
    rw [flatten_def, flatten_def]
    exact (flattenF_perm (sortHC_perm _)).cons tc

theorem output_map_cat (cats : List CategoryEntity) :
    (buildCategoryHierarchy cats).map HCat.cat =
      (sortHC (buildForest (mapValues cats) (mapValues cats).length
        ((mapValues cats).filter (isRoot (mapValues cats))))).map HCat.cat := by
  rw [buildCategoryHierarchy_eq, List.map_map]
  congr 1

/-- An input list exhibiting the behaviors that refute C8 as stated:
two categories share the id "x" (one is dropped by the map), categories
"a" and "b" form a parent cycle (both vanish from the returned forest),
and category "f" names the existing id "" as its parent yet lands in the
root list because the empty string is falsy. -/
def cxC8 : List CategoryEntity :=
  [{ id := "x", name := "x1" },
   { id := "x", name := "x2" },
   { id := "a", name := "a", parent_id := some "b" },
   { id := "b", name := "b", parent_id := some "a" },
   { id := "", name := "e" },
   { id := "f", name := "f", parent_id := some "" }]

/-- A two-category input (a root and its child) with an acyclic parent
relation, used as the witness input for the amended C8. -/
def exC8 : List CategoryEntity :=
  [{ id := "r", name := "root" },
   { id := "c", name := "child", parent_id := some "r" }]

/-- Input whose grandchildren carry decreasing sort orders: the depth-two
`subcategories` array comes out in encounter order, not sorted. -/
def sxC9 : List CategoryEntity :=
  [{ id := "r", name := "r", sort_order := some 5 },
   { id := "c", name := "c", parent_id := some "r" },
   { id := "g1", name := "g1", sort_order := some 2, parent_id := some "c" },
   { id := "g2", name := "g2", sort_order := some 1, parent_id := some "c" }]

end Categories

/-- C8 (amended): for every input list of categories with pairwise
distinct ids whose parent relation is acyclic — witnessed by a rank
function increasing from parent to child along the code's truthy parent
lookup — the returned tree carries each input category exactly once (its
flattened categories are a permutation of the input): under the node of
its parent when its `parent_id` is a truthy (non-empty) string equal to
the id of some input category, and otherwise in the returned root
list. -/
theorem buildCategoryHierarchy_complete (cats : List Categories.CategoryEntity)
    (rank : String → Nat)
    (hnodup : (cats.map (fun c => c.id)).Nodup)
    (hrank : ∀ c ∈ cats, ∀ p ∈ cats,
      Categories.truthyParent c = some p.id → rank p.id < rank c.id) :
    (Categories.flattenF (Categories.buildCategoryHierarchy cats)).Perm cats ∧
      (∀ c ∈ cats, ∀ p, Categories.truthyParent c = some p →
        Categories.hasId cats p = true →
        ∃ n ∈ Categories.nodesF (Categories.buildCategoryHierarchy cats),
          n.cat.id = p ∧ c ∈ n.subcategories.map Categories.HCat.cat) ∧
      (∀ c ∈ cats, Categories.isRoot cats c = true →
        c ∈ (Categories.buildCategoryHierarchy cats).map Categories.HCat.cat) := by
  have hpool : Categories.mapValues cats = cats := Categories.mapValues_self hnodup
  have hrank' : ∀ c ∈ cats, ∀ p, Categories.parentOf cats c = some p →
      rank p.id < rank c.id := fun c hc p hp =>
    hrank c hc p (Categories.parentOf_mem hp) (Categories.parentOf_truthy hp)
  have hperm : (Categories.flattenF (Categories.buildCategoryHierarchy cats)).Perm cats := by
    have h1 := Categories.output_flatten_perm_forest cats
    rw [hpool] at h1
    exact h1.trans (Categories.forest_flatten_perm rank hnodup hrank')
  refine ⟨hperm, ?_, ?_⟩
  · intro c hc p ht hh
    have hq : ∃ q ∈ cats, q.id = p := by
      rw [Categories.hasId, List.any_eq_true] at hh
      obtain ⟨q, hqm, hqe⟩ := hh
      exact ⟨q, hqm, beq_iff_eq.mp hqe⟩
    obtain ⟨q, hqmem, hqid⟩ := hq
    have hqflat : q ∈ Categories.flattenF (Categories.buildCategoryHierarchy cats) :=
      hperm.symm.subset hqmem
    rw [Categories.flattenF_eq_nodesF_map, List.mem_map] at hqflat
    obtain ⟨n, hn, hncat⟩ := hqflat
    obtain ⟨m, hm, hcat, hpermsub⟩ := Categories.out_nodes_transfer cats n hn
    rw [hpool] at hm
    have hsubm := Categories.forest_subcats hnodup m hm
    refine ⟨n, hn, ?_, ?_⟩
    · rw [hncat, hqid]
    · have hcchild : c ∈ Categories.childrenOf cats m.cat.id := by
        refine Categories.mem_childrenOf.mpr ⟨hc, ?_⟩
        rw [← hcat, hncat, hqid]
        exact ht
      rw [← hsubm] at hcchild
      exact hpermsub.symm.subset hcchild
  · intro c hc hroot
    have hcr : c ∈ cats.filter (Categories.isRoot cats) :=
      List.mem_filter.mpr ⟨hc, hroot⟩
    have hmc : c ∈ (Categories.buildForest cats cats.length
        (cats.filter (Categories.isRoot cats))).map Categories.HCat.cat := by
      rw [Categories.buildForest_cats]
      exact hcr
    have hout := Categories.output_map_cat cats
    rw [hpool] at hout
    rw [hout]
    exact ((Categories.sortHC_perm _).map Categories.HCat.cat).mem_iff.mpr hmc

/-- Witness for the amended C8 at a concrete root-and-child input. -/
theorem buildCategoryHierarchy_complete_witness :
    (Categories.flattenF
      (Categories.buildCategoryHierarchy Categories.exC8)).Perm Categories.exC8 :=
  (buildCategoryHierarchy_complete Categories.exC8
    (fun s => if s = "r" then 0 else 1) (by decide) (by decide)).1

/-- Counterexample to C8 as stated: on `cxC8` the returned tree holds
only 3 of the 6 input categories (a duplicated id and a parent cycle
drop categories), and category "f" sits in the root list even though its
`parent_id` equals the id of an input category (the empty string is
falsy for the lookup). -/
theorem buildCategoryHierarchy_complete_counterexample :
    Categories.cxC8.length = 6 ∧
      (Categories.flattenF
        (Categories.buildCategoryHierarchy Categories.cxC8)).length = 3 ∧
      ({ id := "f", name := "f", parent_id := some "" } :
          Categories.CategoryEntity) ∈ Categories.cxC8 ∧
      ({ id := "f", name := "f", parent_id := some "" } :
          Categories.CategoryEntity).parent_id = some "" ∧
      "" ∈ Categories.cxC8.map (fun c => c.id) ∧
      ({ id := "f", name := "f", parent_id := some "" } :
          Categories.CategoryEntity) ∈
        (Categories.buildCategoryHierarchy Categories.cxC8).map
          Categories.HCat.cat := by
  refine ⟨rfl, by decide, by decide, rfl, by decide, by decide⟩

/-- C9: `buildCategoryHierarchy` sorts only the top two levels.  The
root list is sorted ascending by `sort_order` (missing treated as 0),
each root's immediate `subcategories` array is likewise sorted, and
every `subcategories` array nested at depth two or greater is exactly
the children-in-map-encounter-order list `childrenOf`, unsorted — as the
concrete input `sxC9` shows, where the depth-two array keeps sort keys
in the order 2, 1. -/
theorem buildCategoryHierarchy_sorting (cats : List Categories.CategoryEntity) :
    List.Sorted (fun a b => Categories.sortKey a ≤ Categories.sortKey b)
        ((Categories.buildCategoryHierarchy cats).map Categories.HCat.cat) ∧
      (∀ n ∈ Categories.buildCategoryHierarchy cats,
        List.Sorted (fun a b => Categories.sortKey a ≤ Categories.sortKey b)
          (n.subcategories.map Categories.HCat.cat)) ∧
      (∀ n ∈ Categories.buildCategoryHierarchy cats,
        ∀ m ∈ n.subcategories, ∀ q ∈ Categories.HCat.nodes m,
          q.subcategories.map Categories.HCat.cat =
            Categories.childrenOf (Categories.mapValues cats) q.cat.id) ∧
      ((Categories.buildCategoryHierarchy Categories.sxC9).map
        (fun n => (n.cat.id, n.subcategories.map
          (fun m => (m.cat.id, m.subcategories.map
            (fun q => (q.cat.id, Categories.sortKey q.cat)))))) =
        [("r", [("c", [("g1", 2), ("g2", 1)])])]) := by
  refine ⟨?_, ?_, ?_, by decide⟩
  · rw [Categories.output_map_cat cats]
    exact (Categories.sortHC_sorted _).map Categories.HCat.cat (fun a b h => h)
  · intro n hn
    rw [Categories.buildCategoryHierarchy_eq, List.mem_map] at hn
    obtain ⟨t, -, rfl⟩ := hn
    show List.Sorted _ ((Categories.sortHC t.subcategories).map Categories.HCat.cat)
    exact (Categories.sortHC_sorted _).map Categories.HCat.cat (fun a b h => h)
  · intro n hn m hm q hq
    rw [Categories.buildCategoryHierarchy_eq, List.mem_map] at hn
    obtain ⟨t, ht, rfl⟩ := hn
    have htf : t ∈ Categories.buildForest (Categories.mapValues cats)
        (Categories.mapValues cats).length
        ((Categories.mapValues cats).filter (Categories.isRoot (Categories.mapValues cats))) :=
      (Categories.sortHC_perm _).subset ht
    have hm' : m ∈ t.subcategories := by
      have hm2 : m ∈ Categories.sortHC t.subcategories := hm
      exact (Categories.sortHC_perm _).subset hm2
    have hqn : q ∈ Categories.nodesF t.subcategories :=
      Categories.nodes_subset_nodesF hm' q hq
    have hqt : q ∈ Categories.HCat.nodes t := by
      cases t with
      | mk tc tsubs => exact Categories.mem_nodes_of_mem_sub hqn
    have hqf : q ∈ Categories.nodesF (Categories.buildForest (Categories.mapValues cats)
        (Categories.mapValues cats).length
        ((Categories.mapValues cats).filter (Categories.isRoot (Categories.mapValues cats)))) :=
      Categories.nodes_subset_nodesF htf q hqt
    exact Categories.forest_subcats (Categories.mapValues_ids_nodup cats) q hqf

namespace Categories

/-- A heap object for the mutation-level model of
`buildCategoryHierarchy`: the category fields plus the `subcategories`
array of addresses.  Input objects carry `none` (a plain
`CategoryEntity` has no `subcategories` field); only the copies made in
pass one carry `some`. -/
structure HeapObj where
  cat : CategoryEntity
  subs : Option (List Nat)
deriving DecidableEq, Repr

/-- JS `Map.set`: overwrite in place when the key exists (keeping its
position), append otherwise. -/
def jsMapSet (m : List (String × Nat)) (k : String) (v : Nat) :
    List (String × Nat) :=
  if m.any (fun p => p.1 == k) then
    m.map (fun p => if p.1 == k then (k, v) else p)
  else m ++ [(k, v)]

/-- JS `Map.get`. -/
def mapGet (m : List (String × Nat)) (k : String) : Option Nat :=
  (m.find? (fun p => p.1 == k)).map (fun p => p.2)

/-- The heap after pass one: the input objects at addresses
`0..cats.length-1`, untouched, followed by the shallow copies (fresh
objects with `subcategories: []`) at `cats.length..`. -/
def pass1Heap (cats : List CategoryEntity) : List HeapObj :=
  cats.map (fun c => ⟨c, none⟩) ++ cats.map (fun c => ⟨c, some []⟩)

/-- The `categoryMap` after pass one: each category's id mapped to the
address of its copy, with JS `Map.set` overwrite semantics. -/
def pass1Map (cats : List CategoryEntity) : List (String × Nat) :=
  cats.enum.foldl (fun m kv => jsMapSet m kv.2.id (cats.length + kv.1)) []

/-- `parent.subcategories?.push(category)`: append an address to the
subcategories array of the object at `pa`. -/
def pushChild (heap : List HeapObj) (pa a : Nat) : List HeapObj :=
  match heap.get? pa with
  | some obj => heap.set pa ⟨obj.cat, some ((obj.subs.getD []) ++ [a])⟩
  | none => heap

/-- Pass two over the map's entries in iteration order: push each node
into its parent's `subcategories` array when the truthy parent lookup
succeeds, otherwise push it onto `rootCategories`. -/
def pass2 (m : List (String × Nat)) (heap : List HeapObj) :
    List HeapObj × List Nat :=
  m.foldl
    (fun st kv =>
      match st.1.get? kv.2 with
      | none => st
      | some obj =>
        match truthyParent obj.cat with
        | none => (st.1, st.2 ++ [kv.2])
        | some p =>
          match mapGet m p with
          | some pa => (pushChild st.1 pa kv.2, st.2)
          | none => (st.1, st.2 ++ [kv.2]))
    (heap, [])

/-- The sort key of the object at an address. -/
def heapKey (heap : List HeapObj) (a : Nat) : Int :=
  match heap.get? a with
  | some obj => sortKey obj.cat
  | none => 0

/-- The final sorting phase: sort `rootCategories` by sort key, then
sort each root object's `subcategories` array in place. -/
def sortPhase (heap : List HeapObj) (roots : List Nat) :
    List HeapObj × List Nat :=
  let roots' := roots.insertionSort (fun a b => heapKey heap a ≤ heapKey heap b)
  (roots'.foldl
    (fun h a =>
      match h.get? a with
      | some obj => h.set a ⟨obj.cat, some ((obj.subs.getD []).insertionSort
          (fun x y => heapKey h x ≤ heapKey h y))⟩
      | none => h)
    heap, roots')

/-- Translated from `buildCategoryHierarchy` in
`BuildCategoryHierarchy.ts` a second time, now as a transformation of an
explicit heap of objects, so that the function's effect on the argument
objects is statable: pass one allocates the copies, pass two wires
parents and roots, the final phase sorts.  Returns the final heap and
the `rootCategories` addresses. -/
def buildCategoryHierarchyHeap (cats : List CategoryEntity) :
    List HeapObj × List Nat :=
  let heap1 := pass1Heap cats
  let m := pass1Map cats
  let st := pass2 m heap1
  sortPhase st.1 st.2

end Categories

namespace Categories

theorem jsMapSet_vals {m : List (String × Nat)} {P : Nat → Prop}
    (hm : ∀ p ∈ m, P p.2) {k : String} {v : Nat} (hv : P v) :
    ∀ p ∈ jsMapSet m k v, P p.2 := by
  intro p hp
  unfold jsMapSet at hp
  by_cases hk : m.any (fun p => p.1 == k) = true
  · rw [if_pos hk] at hp
    rw [List.mem_map] at hp
    obtain ⟨q, hq, hqe⟩ := hp
    by_cases hqk : (q.1 == k) = true
    · rw [if_pos hqk] at hqe
      rw [← hqe]
      exact hv
    · rw [if_neg (by simp [hqk])] at hqe
      rw [← hqe]
      exact hm q hq
  · rw [if_neg hk] at hp
    rcases List.mem_append.mp hp with hp' | hp'
    · exact hm p hp'
    · rw [List.mem_singleton.mp hp']
      exact hv

theorem pass1Map_vals (cats : List CategoryEntity) :
    ∀ p ∈ pass1Map cats, cats.length ≤ p.2 := by
  unfold pass1Map
  have hgen : ∀ (l : List (Nat × CategoryEntity)) (m : List (String × Nat)),
      (∀ p ∈ m, cats.length ≤ p.2) →
      ∀ p ∈ l.foldl (fun m kv => jsMapSet m kv.2.id (cats.length + kv.1)) m,
        cats.length ≤ p.2 := by
    intro l
    induction l with
    | nil => intro m hm; exact hm
    | cons kv rest ih =>
      intro m hm
      exact ih _ (jsMapSet_vals hm (Nat.le_add_right _ _))
  exact hgen cats.enum [] (by intro p hp; cases hp)

theorem mapGet_ge {m : List (String × Nat)} {N : Nat}
    (hm : ∀ p ∈ m, N ≤ p.2) {k : String} {a : Nat} (h : mapGet m k = some a) :
    N ≤ a := by
  unfold mapGet at h
  cases hf : m.find? (fun p => p.1 == k) with
  | none => rw [hf] at h; cases h
  | some q =>
    rw [hf] at h
    injection h with h
    rw [← h]
    exact hm q (List.mem_of_find?_eq_some hf)

theorem pushChild_low {heap : List HeapObj} {pa a i : Nat} (h : i ≠ pa) :
    (pushChild heap pa a).get? i = heap.get? i := by
  unfold pushChild
  cases heap.get? pa with
  | none => rfl
  | some obj => exact List.get?_set_ne _ _ (Ne.symm h)

theorem pass2_low {m : List (String × Nat)} {N : Nat}
    (hm : ∀ p ∈ m, N ≤ p.2) (heap : List HeapObj) :
    (∀ i, i < N → ((pass2 m heap).1).get? i = heap.get? i) ∧
      (∀ a ∈ (pass2 m heap).2, N ≤ a) := by
  unfold pass2
  have hgen : ∀ (entries : List (String × Nat)) (st : List HeapObj × List Nat),
      (∀ kv ∈ entries, N ≤ kv.2) →
      (∀ i, i < N → st.1.get? i = heap.get? i) → (∀ a ∈ st.2, N ≤ a) →
      (∀ i, i < N →
        ((entries.foldl (fun st kv =>
          match st.1.get? kv.2 with
          | none => st
          | some obj =>
            match truthyParent obj.cat with
            | none => (st.1, st.2 ++ [kv.2])
            | some p =>
              match mapGet m p with
              | some pa => (pushChild st.1 pa kv.2, st.2)
              | none => (st.1, st.2 ++ [kv.2])) st).1).get? i = heap.get? i) ∧
      (∀ a ∈ (entries.foldl (fun st kv =>
          match st.1.get? kv.2 with
          | none => st
          | some obj =>
            match truthyParent obj.cat with
            | none => (st.1, st.2 ++ [kv.2])
            | some p =>
              match mapGet m p with
              | some pa => (pushChild st.1 pa kv.2, st.2)
              | none => (st.1, st.2 ++ [kv.2])) st).2, N ≤ a) := by
    intro entries
    induction entries with
    | nil => intro st _ h1 h2; exact ⟨h1, h2⟩
    | cons kv rest ih =>
      intro st hent h1 h2
      rw [List.foldl_cons]
      apply ih _ (fun q hq => hent q (List.mem_cons_of_mem kv hq))
      · intro i hi
        cases st.1.get? kv.2 with
        | none => exact h1 i hi
        | some obj =>
          dsimp only
          cases truthyParent obj.cat with
          | none => exact h1 i hi
          | some p =>
            dsimp only
            cases hpa : mapGet m p with
            | none => exact h1 i hi
            | some pa =>
              show (pushChild st.1 pa kv.2).get? i = heap.get? i
              rw [pushChild_low (by have := mapGet_ge hm hpa; omega)]
              exact h1 i hi
      · intro a ha
        revert ha
        cases st.1.get? kv.2 with
        | none => exact h2 a
        | some obj =>
          dsimp only
          cases truthyParent obj.cat with
          | none =>
            dsimp only
            intro ha
            rcases List.mem_append.mp ha with ha' | ha'
            · exact h2 a ha'
            · rw [List.mem_singleton.mp ha']
              exact hent kv (List.mem_cons_self kv rest)
          | some p =>
            dsimp only
            cases mapGet m p with
            | none =>
              dsimp only
              intro ha
              rcases List.mem_append.mp ha with ha' | ha'
              · exact h2 a ha'
              · rw [List.mem_singleton.mp ha']
                exact hent kv (List.mem_cons_self kv rest)
            | some pa =>
              dsimp only
              exact h2 a
  exact hgen m (heap, []) hm (fun _ _ => rfl) (fun a ha => absurd ha (List.not_mem_nil a))

theorem sortPhase_low {heap : List HeapObj} {roots : List Nat} {N : Nat}
    (hroots : ∀ a ∈ roots, N ≤ a) :
    ∀ i, i < N → ((sortPhase heap roots).1).get? i = heap.get? i := by
  intro i hi
  unfold sortPhase
  have hroots' : ∀ a ∈ roots.insertionSort
      (fun a b => heapKey heap a ≤ heapKey heap b), N ≤ a :=
    fun a ha => hroots a ((List.perm_insertionSort _ roots).subset ha)
  have hgen : ∀ (l : List Nat) (h : List HeapObj), (∀ a ∈ l, N ≤ a) →
      (h.get? i = heap.get? i) →
      ((l.foldl (fun h a =>
        match h.get? a with
        | some obj => h.set a ⟨obj.cat, some ((obj.subs.getD []).insertionSort
            (fun x y => heapKey h x ≤ heapKey h y))⟩
        | none => h) h).get? i) = heap.get? i := by
    intro l
    induction l with
    | nil => intro h _ hh; exact hh
    | cons a rest ih =>
      intro h hl hh
      rw [List.foldl_cons]
      apply ih _ (fun b hb => hl b (List.mem_cons_of_mem a hb))
      cases h.get? a with
      | none => exact hh
      | some obj =>
        show (h.set a _).get? i = heap.get? i
        rw [List.get?_set_ne _ _ (by have := hl a (List.mem_cons_self a rest); omega)]
        exact hh
  exact hgen _ heap hroots' rfl

theorem pass1Heap_low (cats : List CategoryEntity) (i : Nat)
    (hi : i < cats.length) :
    (pass1Heap cats).get? i =
      (cats.get? i).map (fun c => (⟨c, none⟩ : HeapObj)) := by
  unfold pass1Heap
  rw [List.get?_append (by simpa using hi), List.get?_map]

end Categories

/-- C10: `buildCategoryHierarchy` does not mutate its input.  In the
heap model of the function, the objects of the argument list (addresses
below `cats.length`) are bit-identical after the call — every field
unchanged and still no `subcategories` field — because pass one places
fresh shallow copies at fresh addresses and every later write (pass
two's pushes, the sort phase's in-place sorts) targets copy addresses;
accordingly every returned root is a fresh copy, not an argument
object. -/
theorem buildCategoryHierarchy_no_mutation (cats : List Categories.CategoryEntity)
    (i : Nat) (hi : i < cats.length) :
    ((Categories.buildCategoryHierarchyHeap cats).1).get? i =
        (cats.get? i).map (fun c => (⟨c, none⟩ : Categories.HeapObj)) ∧
      (∀ a ∈ (Categories.buildCategoryHierarchyHeap cats).2, cats.length ≤ a) := by
  have hm := Categories.pass1Map_vals cats
  obtain ⟨hlow, hroots⟩ := Categories.pass2_low hm (Categories.pass1Heap cats)
  constructor
  · show ((Categories.sortPhase (Categories.pass2 (Categories.pass1Map cats)
      (Categories.pass1Heap cats)).1 (Categories.pass2 (Categories.pass1Map cats)
      (Categories.pass1Heap cats)).2).1).get? i = _
    rw [Categories.sortPhase_low hroots i hi, hlow i hi,
      Categories.pass1Heap_low cats i hi]
  · intro a ha
    have ha2 : a ∈ (Categories.sortPhase (Categories.pass2 (Categories.pass1Map cats)
        (Categories.pass1Heap cats)).1 (Categories.pass2 (Categories.pass1Map cats)
        (Categories.pass1Heap cats)).2).2 := ha
    unfold Categories.sortPhase at ha2
    exact hroots a ((List.perm_insertionSort _ _).subset ha2)

/-- Witness for C10 at a concrete two-category input. -/
theorem buildCategoryHierarchy_no_mutation_witness :
    ((Categories.buildCategoryHierarchyHeap Categories.exC8).1).get? 0 =
      some ⟨{ id := "r", name := "root" }, none⟩ :=
  ((buildCategoryHierarchy_no_mutation Categories.exC8 0 (by decide)).1).trans (by decide)
